import Mathlib

/-!
# orgstat: the fetch / aggregate / rank pipeline

A shallow embedding of `orgstat.go`.

* `int64` values are integers; every `+=` and `++` of the source is
  `add64`, addition followed by the two's complement wrap-around `wrap64`.
* A `time.Time` is the number of nanoseconds since the Unix epoch, so that
  `t.After(u)` is `u < t`; `time.Unix(sec, 0)` is `sec * 10^9` as long as the
  `int64` seconds counter of the package does not wrap (`timeUnix`).
* A Go map `map[string]*authorRepoStat` is an association list (`AggMap`);
  the order of the list is the order in which `range` yields the entries.
* A run-time panic (nil pointer dereference, slice or index out of range) is
  the result `none`.
* The limiter of the fetch loop is a step relation (`step`) on the state
  `Limiter`: the steps of `main` and the ends of the workers, in any order.
* A Go string is a `String`; `strconv.FormatInt(n, 10)` is `Int.repr n`.
-/

namespace Orgstat

/-! ## Machine integers and time -/

/-- Two's complement reduction of an integer to the `int64` range. -/
def wrap64 (x : Int) : Int := (x + 2 ^ 63) % 2 ^ 64 - 2 ^ 63

/-- Go's `+` on `int64`. -/
def add64 (a b : Int) : Int := wrap64 (a + b)

/-- The `int64` sum of a list: the fold of `add64` from zero (`sum64_eq_foldl`). -/
def sum64 (xs : List Int) : Int := wrap64 xs.sum

/-- Membership of the `int64` range. -/
def inInt64 (x : Int) : Prop := -(2 ^ 63) ≤ x ∧ x < 2 ^ 63

/-- An instant, in nanoseconds since the Unix epoch. -/
abbrev Time := Int

/-- The constant `time.Hour`, in nanoseconds. -/
def hour : Int := 3600 * 1000000000

/-- The constant `unixToInternal` of the package `time`: the seconds from the
first of January of the year 1 to the Unix epoch. -/
def unixToInternal : Int := 62135596800

/-- The instant `time.Unix(sec, 0)`. The package stores the seconds counted from
the year 1, `sec + unixToInternal`, in an `int64`: for
`sec > 9223371974719179007` the sum wraps around and the instant lies about 292
billion years in the past. For the other `int64` values of `sec` it is the
instant `sec * 10^9` (`timeUnix_of_le`). -/
def timeUnix (sec : Int) : Time :=
  (wrap64 (sec + unixToInternal) - unixToInternal) * 1000000000

/-- The test `t.After(u)` for two instants without monotonic clock reading: the
package compares seconds, then nanoseconds, which is the comparison of the
nanoseconds since the epoch. -/
def Time.After (t u : Time) : Bool := decide (u < t)

/-- The package-level variables `weekAgo`, `monthAgo`, `yearAgo`. -/
structure Cutoffs where
  weekAgo : Time
  monthAgo : Time
  yearAgo : Time
deriving DecidableEq

/-- Initialisation of the three cutoffs; each one reads the clock by its own
call of `time.Now()`, the three readings being `now1`, `now2`, `now3`. -/
def initCutoffs (now1 now2 now3 : Time) : Cutoffs :=
  { weekAgo := now1 + (-168) * hour
    monthAgo := now2 + (-720) * hour
    yearAgo := now3 + (-8760) * hour }

/-! ## Data model -/

/-- One element of `Weeks`: a weekly point of one author in one repository. -/
structure Week where
  WeekStart : Int
  Additions : Int
  Deletions : Int
  Commits : Int
deriving DecidableEq

/-- The `Author` field of `authorRepoStat`. -/
structure AuthorInfo where
  ID : Int
  Login : String
  AvatarURL : String
deriving DecidableEq

/-- The type of the fields `Total`, `LastWeek`, `LastMonth`, `LastYear`. -/
structure Counts where
  Additions : Int
  Deletions : Int
  Commits : Int
  NumRepos : Int
deriving DecidableEq

/-- The zero value of `Counts`. -/
def Counts.zero : Counts := { Additions := 0, Deletions := 0, Commits := 0, NumRepos := 0 }

/-- The struct `authorRepoStat`. -/
structure authorRepoStat where
  Weeks : List Week
  Author : AuthorInfo
  Total : Counts
  LastWeek : Counts
  LastMonth : Counts
  LastYear : Counts
deriving DecidableEq

/-- The struct `repoStat`. -/
structure repoStat where
  Name : String
  AuthorStats : List authorRepoStat
deriving DecidableEq

/-- The part of an `authorRepoStat` that the JSON of the contributor
statistics endpoint fills in: `weeks` and `author`. -/
structure Contributor where
  Weeks : List Week
  Author : AuthorInfo
deriving DecidableEq

/-- The `authorRepoStat` decoded from one JSON element: the four totals carry
the tag `json:"-"` and keep their zero value. -/
def Contributor.decode (c : Contributor) : authorRepoStat :=
  { Weeks := c.Weeks, Author := c.Author, Total := Counts.zero, LastWeek := Counts.zero,
    LastMonth := Counts.zero, LastYear := Counts.zero }

/-! ## getStats -/

/-- The three `+=` on one totals field for one weekly point. -/
def Counts.addWeek (c : Counts) (w : Week) : Counts :=
  { c with
    Additions := add64 c.Additions w.Additions
    Commits := add64 c.Commits w.Commits
    Deletions := add64 c.Deletions w.Deletions }

/-- The body of the inner loop of `getStats` for the weekly point `w`. -/
def weekStep (cut : Cutoffs) (s : authorRepoStat) (w : Week) : authorRepoStat :=
  let s := { s with Total := s.Total.addWeek w }
  let t := timeUnix w.WeekStart
  let s := if t.After cut.weekAgo then { s with LastWeek := s.LastWeek.addWeek w } else s
  let s := if t.After cut.monthAgo then { s with LastMonth := s.LastMonth.addWeek w } else s
  let s := if t.After cut.yearAgo then { s with LastYear := s.LastYear.addWeek w } else s
  s

/-- The inner loop of `getStats`: `for _, w := range stats.AuthorStats[i].Weeks`. -/
def sumWeeks (cut : Cutoffs) (s : authorRepoStat) : authorRepoStat :=
  s.Weeks.foldl (weekStep cut) s

/-- The function `getStats`. The answer of `hubhub.Request` is the argument
`resp`: an error, or the decoded list of contributors. The result is the pair
of the returned pointer (`none` is `nil`) and the returned error. -/
def getStats (cut : Cutoffs) (repo : String) (resp : Except String (List Contributor)) :
    Option repoStat × Option String :=
  match resp with
  | .error err => (none, some err)
  | .ok cs =>
    (some { Name := repo, AuthorStats := (cs.map Contributor.decode).map (sumWeeks cut) }, none)

/-! ## The aggregation maps and the merge of one repository -/

/-- A Go map `map[string]*authorRepoStat`, as the list of its entries. No two
maps share a pointer: every entry is allocated by its own `&authorRepoStat{}`. -/
abbrev AggMap := List (String × authorRepoStat)

/-- The lookup `m[key]`; `none` is the nil pointer of a missing key. -/
def mapGet : AggMap → String → Option authorRepoStat
  | [], _ => none
  | (k, v) :: m, key => if k = key then some v else mapGet m key

/-- The assignment `m[key] = v`, and the write through the pointer `m[key]`. -/
def mapSet : AggMap → String → authorRepoStat → AggMap
  | [], key, v => [(key, v)]
  | (k, x) :: m, key, v => if k = key then (k, v) :: m else (k, x) :: mapSet m key v

/-- The four maps `totals`, `lastYear`, `lastMonth`, `lastWeek` of `main`. -/
structure Maps where
  totals : AggMap
  lastYear : AggMap
  lastMonth : AggMap
  lastWeek : AggMap
deriving DecidableEq

/-- The four maps as `make` leaves them. -/
def Maps.empty : Maps := { totals := [], lastYear := [], lastMonth := [], lastWeek := [] }

/-- The entry `&authorRepoStat{}` after the assignment of its `Author`. -/
def newEntry (a : AuthorInfo) : authorRepoStat :=
  { Weeks := [], Author := a, Total := Counts.zero, LastWeek := Counts.zero,
    LastMonth := Counts.zero, LastYear := Counts.zero }

/-- The three statements `m[login].Total.Commits += c.Commits`, then `Additions`,
then `Deletions`; dereferencing the nil pointer of a missing key panics. -/
def addTotals (m : AggMap) (login : String) (c : Counts) : Option AggMap :=
  match mapGet m login with
  | none => none
  | some e =>
    some (mapSet m login
      { e with Total := { e.Total with
          Commits := add64 e.Total.Commits c.Commits
          Additions := add64 e.Total.Additions c.Additions
          Deletions := add64 e.Total.Deletions c.Deletions } })

/-- The statement `m[login].Total.NumRepos++`. -/
def incNumRepos (m : AggMap) (login : String) : Option AggMap :=
  match mapGet m login with
  | none => none
  | some e =>
    some (mapSet m login { e with Total := { e.Total with NumRepos := add64 e.Total.NumRepos 1 } })

/-- Lines 135 to 144: when `totals` has no entry for the login, a fresh entry
carrying the author is stored under it in each of the four maps. Only
`totals` is tested. -/
def ensureEntries (σ : Maps) (au : AuthorInfo) : Maps :=
  if (mapGet σ.totals au.Login).isNone then
    { totals := mapSet σ.totals au.Login (newEntry au)
      lastYear := mapSet σ.lastYear au.Login (newEntry au)
      lastMonth := mapSet σ.lastMonth au.Login (newEntry au)
      lastWeek := mapSet σ.lastWeek au.Login (newEntry au) }
  else σ

/-- Lines 146 to 176: the sums of `a` are added to the entries of its login,
`totals[login].Total.NumRepos` is incremented, and the `NumRepos` of the three
other maps are incremented according to the last weekly point of `a`. -/
def accumulateInto (cut : Cutoffs) (σ : Maps) (a : authorRepoStat) : Option Maps :=
  let login := a.Author.Login
  (addTotals σ.totals login a.Total).bind fun totals =>
  (addTotals σ.lastWeek login a.LastWeek).bind fun lastWeek =>
  (addTotals σ.lastMonth login a.LastMonth).bind fun lastMonth =>
  (addTotals σ.lastYear login a.LastYear).bind fun lastYear =>
  (incNumRepos totals login).bind fun totals =>
  if h : 0 < a.Weeks.length then
    let t := timeUnix (a.Weeks.get ⟨a.Weeks.length - 1, Nat.sub_lt h Nat.one_pos⟩).WeekStart
    (if t.After cut.weekAgo then incNumRepos lastWeek login else some lastWeek).bind fun lastWeek =>
    (if t.After cut.monthAgo then incNumRepos lastMonth login else some lastMonth).bind
      fun lastMonth =>
    (if t.After cut.yearAgo then incNumRepos lastYear login else some lastYear).bind
      fun lastYear =>
    some { totals := totals, lastYear := lastYear, lastMonth := lastMonth, lastWeek := lastWeek }
  else
    some { totals := totals, lastYear := lastYear, lastMonth := lastMonth, lastWeek := lastWeek }

/-- The body of the loop `for _, a := range s.AuthorStats` of the worker. -/
def mergeAuthor (cut : Cutoffs) (σ : Maps) (a : authorRepoStat) : Option Maps :=
  accumulateInto cut (ensureEntries σ a.Author) a

/-- The loop over the author entries of one repository, run under the lock. -/
def mergeAuthors (cut : Cutoffs) : Maps → List authorRepoStat → Option Maps
  | σ, [] => some σ
  | σ, a :: as => (mergeAuthor cut σ a).bind fun σ => mergeAuthors cut σ as

/-- The merge step of the worker for the fetched `s`: lines 133 to 178. -/
def mergeRepo (cut : Cutoffs) (σ : Maps) (s : repoStat) : Option Maps :=
  mergeAuthors cut σ s.AuthorStats

/-- The worker of one repository, from the call of `getStats` on. The error is
only written to the standard error stream; the loop that follows reads
`s.AuthorStats` through the returned pointer, which panics when it is nil. -/
def worker (cut : Cutoffs) (σ : Maps) (repo : String)
    (resp : Except String (List Contributor)) : Option Maps :=
  match (getStats cut repo resp).1 with
  | none => none
  | some s => mergeRepo cut σ s

/-- The merges of a list of fetched repositories, one after the other (the
lock makes every merge atomic). -/
def mergeRepos (cut : Cutoffs) : Maps → List repoStat → Option Maps
  | σ, [] => some σ
  | σ, s :: ss => (mergeRepo cut σ s).bind fun σ => mergeRepos cut σ ss

/-- The workers of a list of repositories, each with the answer to its request. -/
def runWorkers (cut : Cutoffs) :
    Maps → List (String × Except String (List Contributor)) → Option Maps
  | σ, [] => some σ
  | σ, r :: rs => (worker cut σ r.1 r.2).bind fun σ => runWorkers cut σ rs

/-! ## Ranking -/

/-- Insertion of `x` into a list ordered by `less`. -/
def insertBy {α : Type} (less : α → α → Bool) (x : α) : List α → List α
  | [] => [x]
  | y :: ys => if less x y then x :: y :: ys else y :: insertBy less x ys

/-- The call `sort.Slice(s, less)`. The library promises a permutation of `s`
ordered by `less` and no more (the sort is not stable); an insertion sort
stands for it, and the theorems use only these two properties. -/
def sortSlice {α : Type} (less : α → α → Bool) : List α → List α
  | [] => []
  | x :: xs => insertBy less x (sortSlice less xs)

/-- The slice expression `s[:n]` on a slice whose capacity is its length:
out of range, hence a panic, when `n` exceeds it. -/
def sliceTo {α : Type} (n : Nat) (s : List α) : Option (List α) :=
  if n ≤ s.length then some (s.take n) else none

/-- The comparison passed to `sort.Slice`: more commits first. -/
def moreCommits (a b : authorRepoStat) : Bool := decide (a.Total.Commits > b.Total.Commits)

/-- The ranking of one map: the entries are copied into a slice made with the
length of the map, sorted by `moreCommits` and cut by `[:100]`. -/
def ranker (m : AggMap) : Option (List authorRepoStat) :=
  sliceTo 100 (sortSlice moreCommits (m.map Prod.snd))

/-- The four rankings of `main`, in the order of the source. -/
def rankAll (σ : Maps) : Option (List repoStat) :=
  (ranker σ.totals).bind fun r0 =>
  (ranker σ.lastYear).bind fun r1 =>
  (ranker σ.lastMonth).bind fun r2 =>
  (ranker σ.lastWeek).bind fun r3 =>
  some [{ Name := "Totals", AuthorStats := r0 }, { Name := "Last year", AuthorStats := r1 },
        { Name := "Last month", AuthorStats := r2 }, { Name := "Last week", AuthorStats := r3 }]

/-! ## Definitions used to state the properties -/

/-- The `int64` sum of `f` over the points of `ws` that satisfy `p`. -/
def windowSum (p : Week → Bool) (f : Week → Int) (ws : List Week) : Int :=
  sum64 ((ws.filter p).map f)

/-- The totals of the points of `ws` that satisfy `p`, as the specification
of `getStats` words them; `NumRepos` is left at zero. -/
def windowTotals (p : Week → Bool) (ws : List Week) : Counts :=
  { Additions := windowSum p Week.Additions ws
    Deletions := windowSum p Week.Deletions ws
    Commits := windowSum p Week.Commits ws
    NumRepos := 0 }

/-- The entries found under one login in the four maps. -/
structure Row where
  totals : Option authorRepoStat
  lastYear : Option authorRepoStat
  lastMonth : Option authorRepoStat
  lastWeek : Option authorRepoStat
deriving DecidableEq

/-- The four lookups `totals[login]`, `lastYear[login]`, `lastMonth[login]`,
`lastWeek[login]`. Two states with the same rows are the same Go maps. -/
def Maps.row (σ : Maps) (login : String) : Row :=
  { totals := mapGet σ.totals login
    lastYear := mapGet σ.lastYear login
    lastMonth := mapGet σ.lastMonth login
    lastWeek := mapGet σ.lastWeek login }

/-- The series of `a` is not empty and its last point starts after `cutoff`. -/
def lastPointAfter (cutoff : Time) (a : authorRepoStat) : Bool :=
  match a.Weeks.getLast? with
  | none => false
  | some w => (timeUnix w.WeekStart).After cutoff

/-- The entry `e` after `c` is added to its `Total` and, when `inc` holds, its
`NumRepos` is incremented. -/
def accumulate (e : authorRepoStat) (c : Counts) (inc : Bool) : authorRepoStat :=
  { e with Total :=
      { Commits := add64 e.Total.Commits c.Commits
        Additions := add64 e.Total.Additions c.Additions
        Deletions := add64 e.Total.Deletions c.Deletions
        NumRepos := if inc then add64 e.Total.NumRepos 1 else e.Total.NumRepos } }

/-- The effect of the loop body for `a` on the row of its login. -/
def rowStep (cut : Cutoffs) (a : authorRepoStat) (r : Row) : Option Row :=
  let r :=
    if r.totals.isNone then
      { totals := some (newEntry a.Author), lastYear := some (newEntry a.Author),
        lastMonth := some (newEntry a.Author), lastWeek := some (newEntry a.Author) }
    else r
  match r.totals, r.lastYear, r.lastMonth, r.lastWeek with
  | some t, some y, some m, some w =>
    some { totals := some (accumulate t a.Total true)
           lastYear := some (accumulate y a.LastYear (lastPointAfter cut.yearAgo a))
           lastMonth := some (accumulate m a.LastMonth (lastPointAfter cut.monthAgo a))
           lastWeek := some (accumulate w a.LastWeek (lastPointAfter cut.weekAgo a)) }
  | _, _, _, _ => none

/-- The author entries of a list of repositories, in the order of the merges. -/
def allAuthors : List repoStat → List authorRepoStat
  | [] => []
  | s :: ss => s.AuthorStats ++ allAuthors ss

/-- The entries of `as` that carry the login `login`. -/
def withLogin (login : String) (as : List authorRepoStat) : List authorRepoStat :=
  as.filter fun a => decide (a.Author.Login = login)

/-- The `NumRepos` stored under `login` in `m`; zero when there is no entry. -/
def repoCount (m : AggMap) (login : String) : Int :=
  match mapGet m login with
  | none => 0
  | some e => e.Total.NumRepos

/-- The row of a login that no map knows. -/
def Row.empty : Row := { totals := none, lastYear := none, lastMonth := none, lastWeek := none }

/-- The effect of the loop bodies for the entries `as`, all of one login, on
the row of that login. -/
def rowSteps (cut : Cutoffs) : Row → List authorRepoStat → Option Row
  | r, [] => some r
  | r, a :: as => (rowStep cut a r).bind fun r => rowSteps cut r as

/-- The entry `e` after `accumulate` for each entry of `as` in turn, with the
window `sel` and the increment test `inc`. -/
def accumulateAll (sel : authorRepoStat → Counts) (inc : authorRepoStat → Bool) :
    authorRepoStat → List authorRepoStat → authorRepoStat
  | e, [] => e
  | e, a :: as => accumulateAll sel inc (accumulate e (sel a) (inc a)) as

/-- A map of 150 authors: the author numbered `i` has `i` commits. -/
def authors150 : AggMap :=
  (List.range 150).map fun (i : Nat) =>
    (toString i,
      { newEntry { ID := (i : Int), Login := toString i, AvatarURL := "" } with
        Total := { Additions := 0, Deletions := 0, Commits := (i : Int), NumRepos := 1 } })

/-- A map of 3 authors. -/
def authors3 : AggMap :=
  [("ann", { newEntry { ID := 1, Login := "ann", AvatarURL := "" } with
      Total := { Additions := 9, Deletions := 4, Commits := 50, NumRepos := 2 } }),
   ("bob", { newEntry { ID := 2, Login := "bob", AvatarURL := "" } with
      Total := { Additions := 7, Deletions := 0, Commits := 50, NumRepos := 1 } }),
   ("cy", { newEntry { ID := 3, Login := "cy", AvatarURL := "" } with
      Total := { Additions := 1, Deletions := 1, Commits := 10, NumRepos := 1 } })]

/-- The row of a login after the entries `as` of that login have been merged
into empty maps. -/
def mergedRow (cut : Cutoffs) : List authorRepoStat → Row
  | [] => Row.empty
  | a :: as =>
    { totals :=
        some (accumulateAll authorRepoStat.Total (fun _ => true) (newEntry a.Author) (a :: as))
      lastYear :=
        some (accumulateAll authorRepoStat.LastYear (lastPointAfter cut.yearAgo)
          (newEntry a.Author) (a :: as))
      lastMonth :=
        some (accumulateAll authorRepoStat.LastMonth (lastPointAfter cut.monthAgo)
          (newEntry a.Author) (a :: as))
      lastWeek :=
        some (accumulateAll authorRepoStat.LastWeek (lastPointAfter cut.weekAgo)
          (newEntry a.Author) (a :: as)) }

/-- The entry `a` has at least one weekly point. -/
def hasPoints (a : authorRepoStat) : Bool := !a.Weeks.isEmpty

/-- The number of repositories of `rs` that list `login` with an entry that
satisfies `p`. -/
def reposWith (p : authorRepoStat → Bool) (login : String) (rs : List repoStat) : Nat :=
  rs.countP fun s => (withLogin login s.AuthorStats).any p

/-- The entry of `login` in `m`, if there is one, stores in its `Total` the
`int64` sums of the window `sel` over the entries `es`. -/
def storesSums (m : AggMap) (login : String) (sel : authorRepoStat → Counts)
    (es : List authorRepoStat) : Prop :=
  ∀ e, mapGet m login = some e →
    e.Total.Commits = sum64 (es.map fun a => (sel a).Commits) ∧
    e.Total.Additions = sum64 (es.map fun a => (sel a).Additions) ∧
    e.Total.Deletions = sum64 (es.map fun a => (sel a).Deletions)

/-- Cutoffs of a run started at the instant 1700000000 s. -/
def demoCut : Cutoffs :=
  initCutoffs 1700000000000000000 1700000000000000000 1700000000000000000

/-- The stats `getStats` returns for a repository with two authors: `ann`, whose
last point is four days old, and `bob`, whose only point is two years old. -/
def demoRepo : repoStat :=
  { Name := "lib"
    AuthorStats :=
      [sumWeeks demoCut
          { Weeks := [{ WeekStart := 1636928000, Additions := 7, Deletions := 1, Commits := 2 },
                      { WeekStart := 1699654400, Additions := 100, Deletions := 20,
                        Commits := 5 }]
            Author := { ID := 1, Login := "ann", AvatarURL := "" }
            Total := Counts.zero, LastWeek := Counts.zero, LastMonth := Counts.zero,
            LastYear := Counts.zero },
       sumWeeks demoCut
          { Weeks := [{ WeekStart := 1636928000, Additions := 3, Deletions := 3, Commits := 1 }]
            Author := { ID := 2, Login := "bob", AvatarURL := "" }
            Total := Counts.zero, LastWeek := Counts.zero, LastMonth := Counts.zero,
            LastYear := Counts.zero }] }

/-- The stats of a repository that lists `bob` with an empty weekly series. -/
def emptySeriesRepo : repoStat :=
  { Name := "docs"
    AuthorStats := [newEntry { ID := 2, Login := "bob", AvatarURL := "" }] }

/-- The four maps after the merge of `demoRepo` into empty maps. -/
def demoState : Maps := (mergeRepos demoCut Maps.empty [demoRepo]).getD Maps.empty

/-- Commits, additions and deletions of `x` are at most those of `y`. -/
def Counts.within (x y : Counts) : Prop :=
  x.Commits ≤ y.Commits ∧ x.Additions ≤ y.Additions ∧ x.Deletions ≤ y.Deletions

/-- The contributors with the login `login` in the answers `resps`, one answer
for each repository. -/
def contributorsOf (login : String) : List (String × List Contributor) → List Contributor
  | [] => []
  | r :: rs => (r.2.filter fun c => decide (c.Author.Login = login)) ++ contributorsOf login rs

/-- The exact sum of `f` over all weekly points of the contributors `cs`. -/
def exactSum (f : Week → Int) (cs : List Contributor) : Int :=
  (cs.map fun c => (c.Weeks.map f).sum).sum

/-- A contributor whose only weekly point, two years old, has a negative
number of commits. -/
def negativeSeries : Contributor :=
  { Weeks := [{ WeekStart := 1636928000, Additions := 0, Deletions := 0, Commits := -5 }]
    Author := { ID := 2, Login := "bob", AvatarURL := "" } }

/-- A contributor with a point of one commit two years ago and a point of
`2^63 - 1` commits four days ago. -/
def overflowSeries : Contributor :=
  { Weeks := [{ WeekStart := 1636928000, Additions := 0, Deletions := 0, Commits := 1 },
              { WeekStart := 1699654400, Additions := 0, Deletions := 0,
                Commits := 9223372036854775807 }]
    Author := { ID := 2, Login := "bob", AvatarURL := "" } }

/-- The answers of two repositories: `lib` with the authors `ann` and `bob`,
`docs` with `bob`. -/
def demoAnswers : List (String × List Contributor) :=
  [("lib",
      [{ Weeks := [{ WeekStart := 1636928000, Additions := 7, Deletions := 1, Commits := 2 },
                   { WeekStart := 1699654400, Additions := 100, Deletions := 20, Commits := 5 }]
         Author := { ID := 1, Login := "ann", AvatarURL := "" } },
       { Weeks := [{ WeekStart := 1636928000, Additions := 3, Deletions := 3, Commits := 1 }]
         Author := { ID := 2, Login := "bob", AvatarURL := "" } }]),
   ("docs",
      [{ Weeks := [{ WeekStart := 1699654400, Additions := 4, Deletions := 0, Commits := 1 }]
         Author := { ID := 2, Login := "bob", AvatarURL := "" } }])]

/-- The stats that `getStats` returns for the repository and answer `r`. -/
def fetched (cut : Cutoffs) (r : String × List Contributor) : repoStat :=
  { Name := r.1, AuthorStats := (r.2.map Contributor.decode).map (sumWeeks cut) }

/-- The answer for the repository `lib` of the first end-to-end scenario: the
one author `alice` with one weekly point of 5 commits, 100 additions and 20
deletions that starts at `weekStart`. -/
def aliceAnswer (weekStart id : Int) (avatar : String) : List Contributor :=
  [{ Weeks := [{ WeekStart := weekStart, Additions := 100, Deletions := 20, Commits := 5 }]
     Author := { ID := id, Login := "alice", AvatarURL := avatar } }]

/-! ## The concurrency limiter -/

/-- The places of `main` from the fetch loop to the end of the final loop. -/
inductive Place where
  /-- At `ch <- true` (line 112), for the repository `i`. -/
  | send
  /-- At the test `len(ch) >= 8` under the label `start` (line 114). -/
  | gate
  /-- At the `go` statement (line 119): the test has just failed. -/
  | spawn
  /-- At the test `len(ch) == 0` of the final loop (line 181). -/
  | wait
  /-- At the receive `<-ch` in the body of the final loop (line 182). -/
  | recv
  /-- Past the final loop (line 185): the ranking begins. -/
  | done
deriving DecidableEq

/-- The state of the limiter: the number of repositories (the capacity of
`ch`), the loop variable `i`, the number `len(ch)` of tokens in the channel, the
number of workers that were started and have not yet run their deferred
`<-ch`, and the place of `main`. -/
structure Limiter where
  repos : Nat
  i : Nat
  tokens : Nat
  inflight : Nat
  place : Place
deriving DecidableEq

/-- What happens next: `main` takes its next step, or a worker finishes and
runs its deferred `<-ch`. -/
inductive Event where
  | main
  | finish
deriving DecidableEq

/-- The state in which `main` reaches the fetch loop; without repositories the
loop is skipped. -/
def Limiter.init (n : Nat) : Limiter :=
  { repos := n, i := 0, tokens := 0, inflight := 0, place := if 0 < n then .send else .wait }

/-- One step of the limiter; `none` when the step cannot be taken: a send on a
full channel and a receive on an empty channel block. Only `main` sends. -/
def step (s : Limiter) : Event → Option Limiter
  | .main =>
    match s.place with
    | .send =>
      if s.tokens < s.repos then some { s with tokens := s.tokens + 1, place := .gate } else none
    | .gate => if s.tokens ≥ 8 then some s else some { s with place := .spawn }
    | .spawn =>
      some { s with
        inflight := s.inflight + 1
        i := s.i + 1
        place := if s.i + 1 < s.repos then .send else .wait }
    | .wait => if s.tokens = 0 then some { s with place := .recv } else some { s with place := .done }
    | .recv => if 0 < s.tokens then some { s with tokens := s.tokens - 1, place := .wait } else none
    | .done => none
  | .finish =>
    if 0 < s.inflight ∧ 0 < s.tokens then
      some { s with inflight := s.inflight - 1, tokens := s.tokens - 1 }
    else none

/-- The steps of a schedule, one after the other. -/
def run : Limiter → List Event → Option Limiter
  | s, [] => some s
  | s, e :: es => (step s e).bind fun s => run s es

/-- What holds in every state of the limiter that a schedule reaches. -/
def Limiter.inv (s : Limiter) : Prop :=
  s.tokens = s.inflight + (if s.place = .gate ∨ s.place = .spawn then 1 else 0) ∧
  s.inflight ≤ 7 ∧ (s.place = .spawn → s.tokens ≤ 7) ∧ (s.place = .recv → s.tokens = 0)

/-- A schedule in which `main` alone moves: with 10 repositories it starts 7
workers, sends the token of the eighth and finds the channel full. -/
def busySchedule : List Event := List.replicate 23 Event.main

/-! ## comma -/

/-- The calls `strconv.FormatInt(n, 10)` and `strconv.Itoa(int(n))`: the
decimal string of `n`. -/
def formatInt (n : Int) : String := Int.repr n

/-- The call `strings.Join(elems, sep)`. -/
def stringsJoin : List String → String → String
  | [], _ => ""
  | [a], _ => a
  | a :: b :: rest, sep => a ++ sep ++ stringsJoin (b :: rest) sep

/-- The assignment `parts[j] = s`; an index out of range panics. -/
def setPart (parts : List String) (j : Int) (s : String) : Option (List String) :=
  if 0 ≤ j ∧ j < parts.length then some (parts.set j.toNat s) else none

/-- The slice expression `parts[j:]`; bounds out of range panic. -/
def sliceFrom (parts : List String) (j : Int) : Option (List String) :=
  if 0 ≤ j ∧ j ≤ parts.length then some (parts.drop j.toNat) else none

/-- The `switch len(parts[j])` of the loop: a group of one or two digits is
filled up with zeros to three. The string holds decimal digits only, so its
length in bytes is its number of characters. -/
def padGroup (s : String) : String :=
  if s.length = 2 then "0" ++ s else if s.length = 1 then "00" ++ s else s

/-- The loop `for v > 999` of `comma`, run for at most `fuel` iterations; the
result is the final `v`, `j` and `parts`. The result `none` is a panic of
`parts[j] = ...`, or the end of the fuel; more fuel never changes a result
(`commaLoop_fuel_succ`). Go's `%` and `/` truncate. -/
def commaLoop : Nat → Int → Int → List String → Option (Int × Int × List String)
  | 0, v, j, parts => if v > 999 then none else some (v, j, parts)
  | fuel + 1, v, j, parts =>
    if v > 999 then
      (setPart parts j (padGroup (formatInt (v.tmod 1000)))).bind fun parts =>
        commaLoop fuel (v.tdiv 1000) (j - 1) parts
    else some (v, j, parts)

/-- The function `comma`; `none` is a panic. The loop is given the fuel `v`,
more than the number of its iterations, since every iteration divides `v` by
1000. -/
def comma (v : Int) : Option String :=
  if v = -9223372036854775808 then some "-9,223,372,036,854,775,808"
  else
    let sign := if v < 0 then "-" else ""
    let v := if v < 0 then wrap64 (0 - v) else v
    let parts := ["", "", "", "", "", "", ""]
    let j : Int := (parts.length : Int) - 1
    (commaLoop v.toNat v j parts).bind fun r =>
      (setPart r.2.2 r.2.1 (formatInt r.1)).bind fun parts =>
        (sliceFrom parts r.2.1).map fun ps => sign ++ stringsJoin ps ","

/-- The characters of the strings `gs`, one string after the other. -/
def concatData : List String → List Char
  | [] => []
  | g :: gs => g.data ++ concatData gs

/-- The strings `g0 :: gs` are the digit groups of `n`: `g0` has one to three
characters, every string of `gs` has three, all characters are decimal digits,
and one after the other they are the decimal digits of `n`. -/
def digitGroups (n : Nat) (g0 : String) (gs : List String) : Prop :=
  1 ≤ g0.length ∧ g0.length ≤ 3 ∧ (∀ g ∈ gs, g.length = 3) ∧
  (∀ g ∈ g0 :: gs, ∀ c ∈ g.data, c.isDigit = true) ∧
  concatData (g0 :: gs) = Nat.toDigits 10 n

/-- The stats `getStats` returns for a repository whose answer lists `bob`
twice, each time with one weekly point that is four days old. -/
def twiceListedRepo : repoStat :=
  fetched demoCut
    ("lib",
      [{ Weeks := [{ WeekStart := 1699654400, Additions := 4, Deletions := 0, Commits := 1 }]
         Author := { ID := 2, Login := "bob", AvatarURL := "" } },
       { Weeks := [{ WeekStart := 1699654400, Additions := 6, Deletions := 2, Commits := 3 }]
         Author := { ID := 2, Login := "bob", AvatarURL := "" } }])

/-! # Theorems -/

/-! ## Arithmetic of `int64` -/

theorem wrap64_add_left (a b : Int) : wrap64 (wrap64 a + b) = wrap64 (a + b) := by
  unfold wrap64; omega

theorem wrap64_add_right (a b : Int) : wrap64 (a + wrap64 b) = wrap64 (a + b) := by
  unfold wrap64; omega

theorem wrap64_idem (x : Int) : wrap64 (wrap64 x) = wrap64 x := by
  unfold wrap64; omega

theorem wrap64_of_inInt64 {x : Int} (h : inInt64 x) : wrap64 x = x := by
  unfold inInt64 at h; unfold wrap64; omega

theorem wrap64_le_self {x : Int} (h : -(2 ^ 63) ≤ x) : wrap64 x ≤ x := by
  unfold wrap64; omega

theorem wrap64_inInt64 (x : Int) : inInt64 (wrap64 x) := by
  unfold inInt64 wrap64; omega

theorem add64_right_comm (a b c : Int) : add64 (add64 a b) c = add64 (add64 a c) b := by
  unfold add64; rw [wrap64_add_left, wrap64_add_left]; congr 1; omega

theorem foldl_add64 (xs : List Int) (a : Int) :
    xs.foldl add64 (wrap64 a) = wrap64 (a + xs.sum) := by
  induction xs generalizing a with
  | nil => simp
  | cons x xs ih => simp [add64, wrap64_add_left, ih, add_assoc]

theorem sum64_eq_foldl (xs : List Int) : sum64 xs = xs.foldl add64 0 := by
  have h := foldl_add64 xs 0
  have h0 : wrap64 0 = 0 := by decide
  rw [h0, zero_add] at h
  exact h.symm

theorem timeUnix_of_le {sec : Int} (h1 : -(2 ^ 63) ≤ sec) (h2 : sec ≤ 9223371974719179007) :
    timeUnix sec = sec * 1000000000 := by
  unfold timeUnix unixToInternal
  rw [wrap64_of_inInt64 ⟨by omega, by omega⟩]
  congr 1
  omega

/-! ## getStats -/

theorem foldl_addWeek (ws : List Week) (a d c n : Int) :
    ws.foldl Counts.addWeek
        { Additions := wrap64 a, Deletions := wrap64 d, Commits := wrap64 c, NumRepos := n } =
      { Additions := wrap64 (a + (ws.map Week.Additions).sum)
        Deletions := wrap64 (d + (ws.map Week.Deletions).sum)
        Commits := wrap64 (c + (ws.map Week.Commits).sum)
        NumRepos := n } := by
  induction ws generalizing a d c with
  | nil => simp
  | cons w ws ih =>
    simp only [List.foldl_cons, Counts.addWeek, add64, wrap64_add_left, ih, List.map_cons,
      List.sum_cons, add_assoc]

theorem foldl_addWeek_filter (p : Week → Bool) (ws : List Week) :
    (ws.filter p).foldl Counts.addWeek Counts.zero = windowTotals p ws := by
  have h := foldl_addWeek (ws.filter p) 0 0 0 0
  have h0 : wrap64 0 = 0 := by decide
  simp only [h0, zero_add] at h
  simp [Counts.zero, h, windowTotals, windowSum, sum64]

theorem foldl_weekStep (cut : Cutoffs) (ws : List Week) (s : authorRepoStat) :
    ws.foldl (weekStep cut) s =
      { Weeks := s.Weeks
        Author := s.Author
        Total := ws.foldl Counts.addWeek s.Total
        LastWeek :=
          (ws.filter fun w => (timeUnix w.WeekStart).After cut.weekAgo).foldl Counts.addWeek
            s.LastWeek
        LastMonth :=
          (ws.filter fun w => (timeUnix w.WeekStart).After cut.monthAgo).foldl Counts.addWeek
            s.LastMonth
        LastYear :=
          (ws.filter fun w => (timeUnix w.WeekStart).After cut.yearAgo).foldl Counts.addWeek
            s.LastYear } := by
  induction ws generalizing s with
  | nil => rfl
  | cons w ws ih =>
    rw [List.foldl_cons, ih]
    simp only [weekStep, List.filter_cons]
    split_ifs <;> simp

theorem sumWeeks_decode (cut : Cutoffs) (c : Contributor) :
    sumWeeks cut c.decode =
      { Weeks := c.Weeks
        Author := c.Author
        Total := windowTotals (fun _ => true) c.Weeks
        LastWeek := windowTotals (fun w => (timeUnix w.WeekStart).After cut.weekAgo) c.Weeks
        LastMonth := windowTotals (fun w => (timeUnix w.WeekStart).After cut.monthAgo) c.Weeks
        LastYear := windowTotals (fun w => (timeUnix w.WeekStart).After cut.yearAgo) c.Weeks } := by
  unfold sumWeeks
  rw [foldl_weekStep]
  simp only [Contributor.decode, foldl_addWeek_filter]
  have h := foldl_addWeek_filter (fun _ => true) c.Weeks
  simp only [List.filter_true] at h
  rw [h]

/-- C3. For every answer of the contributor endpoint, `getStats` succeeds and
gives, for every author series, `Total` = the (`int64`) sum of commits,
additions and deletions over all points; `LastYear`, `LastMonth`, `LastWeek` =
the sum over exactly the points whose week start time `time.Unix(WeekStart, 0)`
is strictly after `now - 8760h`, `now - 720h`, `now - 168h`; each test is
applied to each point on its own and all sums start from zero. The `int64` sum
is the exact sum whenever the exact sum is an `int64`, and the week start time
is the instant `WeekStart` seconds after the epoch for every `int64`
`WeekStart` up to 9223371974719179007, beyond which the seconds counter of
`time.Unix` wraps around. -/
theorem getStats_windowed_totals (now1 now2 now3 : Time) (repo : String)
    (cs : List Contributor) :
    getStats (initCutoffs now1 now2 now3) repo (.ok cs) =
        (some
          { Name := repo
            AuthorStats := cs.map fun c =>
              { Weeks := c.Weeks
                Author := c.Author
                Total := windowTotals (fun _ => true) c.Weeks
                LastWeek :=
                  windowTotals (fun w => decide (now1 - 168 * hour < timeUnix w.WeekStart)) c.Weeks
                LastMonth :=
                  windowTotals (fun w => decide (now2 - 720 * hour < timeUnix w.WeekStart)) c.Weeks
                LastYear :=
                  windowTotals (fun w => decide (now3 - 8760 * hour < timeUnix w.WeekStart))
                    c.Weeks } },
          none)
      ∧ (∀ (p : Week → Bool) (f : Week → Int) (ws : List Week),
          inInt64 ((ws.filter p).map f).sum → windowSum p f ws = ((ws.filter p).map f).sum)
      ∧ ∀ sec : Int, -(2 ^ 63) ≤ sec → sec ≤ 9223371974719179007 →
          timeUnix sec = sec * 1000000000 := by
  refine ⟨?_, fun p f ws h => wrap64_of_inInt64 h, fun sec h1 h2 => timeUnix_of_le h1 h2⟩
  simp only [getStats, List.map_map]
  congr 3
  apply List.map_congr_left
  intro c _
  simp only [Function.comp, sumWeeks_decode, initCutoffs, Time.After]
  congr 2

/-- C3, witness. The totals of a series of three points: one two years old,
one four days old, and one whose `WeekStart` is the largest `int64`, where
`time.Unix` wraps around: 337 all-time commits, 5 in each narrower window. -/
theorem getStats_windowed_totals_witness :
    (getStats (initCutoffs 1700000000000000000 1700000000000000000 1700000000000000000) "lib"
        (.ok [{ Weeks := [{ WeekStart := 1636928000, Additions := 7, Deletions := 1, Commits := 2 },
                          { WeekStart := 1699654400, Additions := 100, Deletions := 20,
                            Commits := 5 },
                          { WeekStart := 9223372036854775807, Additions := 110, Deletions := 220,
                            Commits := 330 }],
                Author := { ID := 1, Login := "alice", AvatarURL := "" } }])).1.map
      (fun s => s.AuthorStats.map fun a =>
        (a.Total.Commits, a.LastYear.Commits, a.LastMonth.Commits, a.LastWeek.Commits)) =
      some [(337, 5, 5, 5)] := by
  rw [(getStats_windowed_totals 1700000000000000000 1700000000000000000 1700000000000000000
    "lib" _).1]
  decide

/-! ## The maps -/

theorem mapGet_mapSet (m : AggMap) (k : String) (v : authorRepoStat) (key : String) :
    mapGet (mapSet m k v) key = if k = key then some v else mapGet m key := by
  induction m with
  | nil => simp [mapSet, mapGet]
  | cons kv m ih =>
    obtain ⟨k0, x⟩ := kv
    by_cases h0 : k0 = k
    · subst h0
      by_cases h1 : k0 = key <;> simp [mapSet, mapGet, h1]
    · by_cases h1 : k0 = key
      · subst h1
        have : ¬ k = k0 := fun h => h0 h.symm
        simp [mapSet, mapGet, h0, this]
      · simp [mapSet, mapGet, h0, h1, ih]

theorem lastPointAfter_nil (cutoff : Time) (a : authorRepoStat) (h : ¬ 0 < a.Weeks.length) :
    lastPointAfter cutoff a = false := by
  have : a.Weeks = [] := List.eq_nil_of_length_eq_zero (by omega)
  simp [lastPointAfter, this]

theorem lastPointAfter_pos (cutoff : Time) (a : authorRepoStat) (h : 0 < a.Weeks.length) :
    lastPointAfter cutoff a =
      (timeUnix (a.Weeks.get ⟨a.Weeks.length - 1, Nat.sub_lt h Nat.one_pos⟩).WeekStart).After
        cutoff := by
  have hne : a.Weeks ≠ [] := by
    intro h0; rw [h0] at h; exact absurd h (by simp)
  have h1 : a.Weeks.getLast? = some (a.Weeks.get ⟨a.Weeks.length - 1, Nat.sub_lt h Nat.one_pos⟩) := by
    rw [List.getLast?_eq_getLast _ hne, List.getLast_eq_getElem]
    rfl
  simp only [lastPointAfter, h1]

theorem addTotals_some {m : AggMap} {k : String} {e : authorRepoStat} (h : mapGet m k = some e)
    (c : Counts) :
    ∃ m', addTotals m k c = some m' ∧
      ∀ key, mapGet m' key = if k = key then some (accumulate e c false) else mapGet m key := by
  refine ⟨_, by simp only [addTotals, h]; rfl, fun key => ?_⟩
  rw [mapGet_mapSet]
  rfl

theorem incIf_some {m : AggMap} {k : String} {e : authorRepoStat} (h : mapGet m k = some e)
    (c : Counts) (b : Bool) {e0 : authorRepoStat} (he : e = accumulate e0 c false) :
    ∃ m', (if b then incNumRepos m k else some m) = some m' ∧
      ∀ key, mapGet m' key = if k = key then some (accumulate e0 c b) else mapGet m key := by
  cases b
  · refine ⟨m, by simp, fun key => ?_⟩
    by_cases hk : k = key
    · subst hk; simp [h, he]
    · simp [hk]
  · refine ⟨_, by simp only [incNumRepos, h]; rfl, fun key => ?_⟩
    rw [mapGet_mapSet, he]
    rfl

theorem accumulateInto_some (cut : Cutoffs) (σ : Maps) (a : authorRepoStat)
    {t y m w : authorRepoStat} (ht : mapGet σ.totals a.Author.Login = some t)
    (hy : mapGet σ.lastYear a.Author.Login = some y)
    (hm : mapGet σ.lastMonth a.Author.Login = some m)
    (hw : mapGet σ.lastWeek a.Author.Login = some w) :
    ∃ σ', accumulateInto cut σ a = some σ' ∧
      ∀ key, σ'.row key =
        if a.Author.Login = key then
          { totals := some (accumulate t a.Total true)
            lastYear := some (accumulate y a.LastYear (lastPointAfter cut.yearAgo a))
            lastMonth := some (accumulate m a.LastMonth (lastPointAfter cut.monthAgo a))
            lastWeek := some (accumulate w a.LastWeek (lastPointAfter cut.weekAgo a)) }
        else σ.row key := by
  obtain ⟨mt, et, gt⟩ := addTotals_some ht a.Total
  obtain ⟨mw, ew, gw⟩ := addTotals_some hw a.LastWeek
  obtain ⟨mm, em, gm⟩ := addTotals_some hm a.LastMonth
  obtain ⟨my, ey, gy⟩ := addTotals_some hy a.LastYear
  have gt0 := gt a.Author.Login
  have gw0 := gw a.Author.Login
  have gm0 := gm a.Author.Login
  have gy0 := gy a.Author.Login
  simp only [if_true] at gt0 gw0 gm0 gy0
  obtain ⟨mt2, et2, gt2⟩ := incIf_some gt0 a.Total true rfl
  simp only [if_true] at et2
  unfold accumulateInto
  simp only [et, ew, em, ey, et2, Option.some_bind]
  by_cases hlen : 0 < a.Weeks.length
  · simp only [hlen, dite_true, ← lastPointAfter_pos _ a hlen]
    obtain ⟨mw2, ew2, gw2⟩ := incIf_some gw0 a.LastWeek (lastPointAfter cut.weekAgo a) rfl
    obtain ⟨mm2, em2, gm2⟩ := incIf_some gm0 a.LastMonth (lastPointAfter cut.monthAgo a) rfl
    obtain ⟨my2, ey2, gy2⟩ := incIf_some gy0 a.LastYear (lastPointAfter cut.yearAgo a) rfl
    simp only [ew2, em2, ey2, Option.some_bind]
    refine ⟨_, rfl, fun key => ?_⟩
    simp only [Maps.row, gt2, gw2, gm2, gy2, gt, gw, gm, gy]
    split_ifs <;> rfl
  · simp only [hlen, dite_false, lastPointAfter_nil _ a hlen]
    refine ⟨_, rfl, fun key => ?_⟩
    simp only [Maps.row, gt2, gt, gw, gm, gy]
    split_ifs <;> rfl

theorem addTotals_none {m : AggMap} {k : String} (h : mapGet m k = none) (c : Counts) :
    addTotals m k c = none := by
  simp only [addTotals, h]

theorem accumulateInto_none (cut : Cutoffs) (σ : Maps) (a : authorRepoStat)
    (h : mapGet σ.totals a.Author.Login = none ∨ mapGet σ.lastYear a.Author.Login = none ∨
      mapGet σ.lastMonth a.Author.Login = none ∨ mapGet σ.lastWeek a.Author.Login = none) :
    accumulateInto cut σ a = none := by
  unfold accumulateInto
  rcases h with h | h | h | h
  · simp only [addTotals_none h]
    rfl
  all_goals
    simp only [addTotals_none h]
    cases addTotals σ.totals a.Author.Login a.Total <;>
    cases addTotals σ.lastWeek a.Author.Login a.LastWeek <;>
    cases addTotals σ.lastMonth a.Author.Login a.LastMonth <;>
    cases addTotals σ.lastYear a.Author.Login a.LastYear <;> rfl

theorem ensureEntries_row (σ : Maps) (au : AuthorInfo) (key : String) :
    (ensureEntries σ au).row key =
      if au.Login = key ∧ (σ.row au.Login).totals = none then
        { totals := some (newEntry au), lastYear := some (newEntry au),
          lastMonth := some (newEntry au), lastWeek := some (newEntry au) }
      else σ.row key := by
  unfold ensureEntries
  rcases h : mapGet σ.totals au.Login with _ | t
  · by_cases hk : au.Login = key
    · subst hk
      simp [Maps.row, h, mapGet_mapSet]
    · simp [Maps.row, h, hk, mapGet_mapSet]
  · simp [Maps.row, h]

theorem mergeAuthor_some (cut : Cutoffs) (σ : Maps) (a : authorRepoStat) (r : Row)
    (h : rowStep cut a (σ.row a.Author.Login) = some r) :
    ∃ σ', mergeAuthor cut σ a = some σ' ∧
      ∀ key, σ'.row key = if a.Author.Login = key then r else σ.row key := by
  have he := ensureEntries_row σ a.Author a.Author.Login
  have he2 := ensureEntries_row σ a.Author
  unfold rowStep at h
  unfold mergeAuthor
  rcases ht : (σ.row a.Author.Login).totals with _ | t
  · simp only [ht, and_self, if_true] at he
    simp only [ht, Option.isNone_none, if_true, Option.some.injEq] at h
    simp only [Maps.row, Row.mk.injEq] at he
    obtain ⟨σ', e1, e2⟩ := accumulateInto_some cut _ a he.1 he.2.1 he.2.2.1 he.2.2.2
    refine ⟨σ', e1, fun key => ?_⟩
    rw [e2 key, he2 key, ← h]
    by_cases hk : a.Author.Login = key
    · simp [hk]
    · simp [hk]
  · simp only [ht, and_false, if_false, reduceCtorEq] at he he2
    simp only [ht, Option.isNone_some, if_false, reduceCtorEq] at h
    rcases hy : (σ.row a.Author.Login).lastYear with _ | y
    · simp [hy] at h
    rcases hm : (σ.row a.Author.Login).lastMonth with _ | m
    · simp [hy, hm] at h
    rcases hw : (σ.row a.Author.Login).lastWeek with _ | w
    · simp [hy, hm, hw] at h
    simp only [hy, hm, hw, Option.some.injEq] at h
    have e0 : (ensureEntries σ a.Author).row a.Author.Login =
        { totals := some t, lastYear := some y, lastMonth := some m, lastWeek := some w } := by
      rw [he]
      cases hr : σ.row a.Author.Login
      simp_all
    simp only [Maps.row, Row.mk.injEq] at e0
    obtain ⟨σ', e1, e2⟩ := accumulateInto_some cut _ a e0.1 e0.2.1 e0.2.2.1 e0.2.2.2
    refine ⟨σ', e1, fun key => ?_⟩
    rw [e2 key, he2 key, ← h]

theorem mergeAuthor_none (cut : Cutoffs) (σ : Maps) (a : authorRepoStat)
    (h : rowStep cut a (σ.row a.Author.Login) = none) : mergeAuthor cut σ a = none := by
  have he := ensureEntries_row σ a.Author a.Author.Login
  unfold rowStep at h
  unfold mergeAuthor
  apply accumulateInto_none
  rcases ht : (σ.row a.Author.Login).totals with _ | t
  · simp [ht] at h
  · simp only [ht, and_false, if_false, reduceCtorEq] at he
    simp only [ht, Option.isNone_some, if_false, reduceCtorEq] at h
    simp only [Maps.row, Row.mk.injEq] at he
    rw [he.1, he.2.1, he.2.2.1, he.2.2.2]
    simp only [Maps.row] at ht h ⊢
    rcases hy : mapGet σ.lastYear a.Author.Login with _ | y
    · simp
    rcases hm : mapGet σ.lastMonth a.Author.Login with _ | m
    · simp
    rcases hw : mapGet σ.lastWeek a.Author.Login with _ | w
    · simp
    simp [ht, hy, hm, hw] at h

/-! ## The merge, login by login -/

theorem withLogin_cons_self (a : authorRepoStat) (as : List authorRepoStat) :
    withLogin a.Author.Login (a :: as) = a :: withLogin a.Author.Login as := by
  simp [withLogin]

theorem withLogin_cons_ne {a : authorRepoStat} {key : String} (h : ¬ a.Author.Login = key)
    (as : List authorRepoStat) : withLogin key (a :: as) = withLogin key as := by
  simp [withLogin, h]

theorem withLogin_append (key : String) (as bs : List authorRepoStat) :
    withLogin key (as ++ bs) = withLogin key as ++ withLogin key bs := by
  simp [withLogin]

theorem mem_withLogin {key : String} {a : authorRepoStat} {as : List authorRepoStat} :
    a ∈ withLogin key as ↔ a ∈ as ∧ a.Author.Login = key := by
  simp [withLogin]

theorem rowSteps_step {cut : Cutoffs} {σ σ1 : Maps} {a : authorRepoStat} {r : Row}
    (hr : rowStep cut a (σ.row a.Author.Login) = some r)
    (h1 : ∀ key, σ1.row key = if a.Author.Login = key then r else σ.row key)
    (as : List authorRepoStat) (key : String) :
    rowSteps cut (σ.row key) (withLogin key (a :: as)) =
      rowSteps cut (σ1.row key) (withLogin key as) := by
  by_cases hk : a.Author.Login = key
  · subst hk
    rw [withLogin_cons_self, h1]
    simp only [rowSteps, hr, Option.some_bind, if_true]
  · rw [withLogin_cons_ne hk, h1]
    simp only [hk, if_false]

theorem mergeAuthors_some_rows (cut : Cutoffs) (as : List authorRepoStat) (σ σ' : Maps)
    (h : mergeAuthors cut σ as = some σ') (key : String) :
    rowSteps cut (σ.row key) (withLogin key as) = some (σ'.row key) := by
  induction as generalizing σ with
  | nil =>
    simp only [mergeAuthors, Option.some.injEq] at h
    subst h
    rfl
  | cons a as ih =>
    rcases hr : rowStep cut a (σ.row a.Author.Login) with _ | r
    · rw [mergeAuthors, mergeAuthor_none cut σ a hr] at h
      exact absurd h (by simp)
    · obtain ⟨σ1, e1, g1⟩ := mergeAuthor_some cut σ a r hr
      rw [mergeAuthors, e1, Option.some_bind] at h
      rw [rowSteps_step hr g1]
      exact ih σ1 h

theorem mergeAuthors_none_rows (cut : Cutoffs) (as : List authorRepoStat) (σ : Maps)
    (h : mergeAuthors cut σ as = none) :
    ∃ key, rowSteps cut (σ.row key) (withLogin key as) = none := by
  induction as generalizing σ with
  | nil => simp [mergeAuthors] at h
  | cons a as ih =>
    rcases hr : rowStep cut a (σ.row a.Author.Login) with _ | r
    · refine ⟨a.Author.Login, ?_⟩
      rw [withLogin_cons_self]
      simp only [rowSteps, hr, Option.none_bind]
    · obtain ⟨σ1, e1, g1⟩ := mergeAuthor_some cut σ a r hr
      rw [mergeAuthors, e1, Option.some_bind] at h
      obtain ⟨key, hk⟩ := ih σ1 h
      exact ⟨key, by rw [rowSteps_step hr g1]; exact hk⟩

theorem mergeAuthors_of_rows (cut : Cutoffs) (as : List authorRepoStat) (σ : Maps)
    (h : ∀ key, (rowSteps cut (σ.row key) (withLogin key as)).isSome) :
    ∃ σ', mergeAuthors cut σ as = some σ' ∧
      ∀ key, rowSteps cut (σ.row key) (withLogin key as) = some (σ'.row key) := by
  rcases hm : mergeAuthors cut σ as with _ | σ'
  · obtain ⟨key, hk⟩ := mergeAuthors_none_rows cut as σ hm
    have := h key
    rw [hk] at this
    exact absurd this (by simp)
  · exact ⟨σ', rfl, mergeAuthors_some_rows cut as σ σ' hm⟩

theorem mergeAuthors_append (cut : Cutoffs) (as bs : List authorRepoStat) (σ : Maps) :
    mergeAuthors cut σ (as ++ bs) = (mergeAuthors cut σ as).bind fun σ => mergeAuthors cut σ bs := by
  induction as generalizing σ with
  | nil => rfl
  | cons a as ih =>
    simp only [List.cons_append, mergeAuthors]
    cases mergeAuthor cut σ a with
    | none => rfl
    | some σ1 => exact ih σ1

theorem mergeRepos_eq (cut : Cutoffs) (rs : List repoStat) (σ : Maps) :
    mergeRepos cut σ rs = mergeAuthors cut σ (allAuthors rs) := by
  induction rs generalizing σ with
  | nil => rfl
  | cons s rs ih =>
    simp only [mergeRepos, allAuthors, mergeAuthors_append, mergeRepo]
    cases mergeAuthors cut σ s.AuthorStats with
    | none => rfl
    | some σ1 => simp only [Option.some_bind, ih]

theorem rowSteps_append (cut : Cutoffs) (as bs : List authorRepoStat) (r : Row) :
    rowSteps cut r (as ++ bs) = (rowSteps cut r as).bind fun r => rowSteps cut r bs := by
  induction as generalizing r with
  | nil => rfl
  | cons a as ih =>
    simp only [List.cons_append, rowSteps]
    cases rowStep cut a r with
    | none => rfl
    | some r1 => exact ih r1

theorem rowSteps_full (cut : Cutoffs) (as : List authorRepoStat) (t y m w : authorRepoStat) :
    rowSteps cut { totals := some t, lastYear := some y, lastMonth := some m, lastWeek := some w }
        as =
      some
        { totals := some (accumulateAll authorRepoStat.Total (fun _ => true) t as)
          lastYear :=
            some (accumulateAll authorRepoStat.LastYear (lastPointAfter cut.yearAgo) y as)
          lastMonth :=
            some (accumulateAll authorRepoStat.LastMonth (lastPointAfter cut.monthAgo) m as)
          lastWeek :=
            some (accumulateAll authorRepoStat.LastWeek (lastPointAfter cut.weekAgo) w as) } := by
  induction as generalizing t y m w with
  | nil => rfl
  | cons a as ih =>
    simp [rowSteps, rowStep, ih, accumulateAll]

theorem rowSteps_empty_cons (cut : Cutoffs) (a : authorRepoStat) (as : List authorRepoStat) :
    rowSteps cut Row.empty (a :: as) =
      some
        { totals :=
            some (accumulateAll authorRepoStat.Total (fun _ => true) (newEntry a.Author) (a :: as))
          lastYear :=
            some (accumulateAll authorRepoStat.LastYear (lastPointAfter cut.yearAgo)
              (newEntry a.Author) (a :: as))
          lastMonth :=
            some (accumulateAll authorRepoStat.LastMonth (lastPointAfter cut.monthAgo)
              (newEntry a.Author) (a :: as))
          lastWeek :=
            some (accumulateAll authorRepoStat.LastWeek (lastPointAfter cut.weekAgo)
              (newEntry a.Author) (a :: as)) } := by
  simp only [rowSteps, rowStep, Row.empty, Option.isNone_none, if_true, Option.some_bind,
    rowSteps_full, accumulateAll]

theorem accumulateAll_eq (sel : authorRepoStat → Counts) (inc : authorRepoStat → Bool)
    (as : List authorRepoStat) (e : authorRepoStat) (a d c n : Int)
    (he : e.Total =
      { Additions := wrap64 a, Deletions := wrap64 d, Commits := wrap64 c, NumRepos := wrap64 n }) :
    accumulateAll sel inc e as =
      { e with Total :=
          { Additions := wrap64 (a + (as.map fun x => (sel x).Additions).sum)
            Deletions := wrap64 (d + (as.map fun x => (sel x).Deletions).sum)
            Commits := wrap64 (c + (as.map fun x => (sel x).Commits).sum)
            NumRepos := wrap64 (n + (as.countP inc : Nat)) } } := by
  induction as generalizing e a d c n with
  | nil =>
    obtain ⟨ws, au, t, lw, lm, ly⟩ := e
    simp only at he
    simp [accumulateAll, he]
  | cons x as ih =>
    rw [accumulateAll]
    cases hi : inc x
    · rw [ih _ (a + (sel x).Additions) (d + (sel x).Deletions) (c + (sel x).Commits) n]
      · simp [accumulate, hi, List.countP_cons, add_assoc]
      · simp [accumulate, he, add64, wrap64_add_left]
    · rw [ih _ (a + (sel x).Additions) (d + (sel x).Deletions) (c + (sel x).Commits) (n + 1)]
      · simp only [accumulate, hi, List.countP_cons, if_true, List.map_cons, List.sum_cons,
          Nat.cast_add, Nat.cast_one, add_assoc]
        congr 3
        omega
      · simp [accumulate, he, add64, wrap64_add_left, hi]

theorem accumulateAll_new (sel : authorRepoStat → Counts) (inc : authorRepoStat → Bool)
    (as : List authorRepoStat) (au : AuthorInfo) :
    accumulateAll sel inc (newEntry au) as =
      { newEntry au with Total :=
          { Additions := sum64 (as.map fun x => (sel x).Additions)
            Deletions := sum64 (as.map fun x => (sel x).Deletions)
            Commits := sum64 (as.map fun x => (sel x).Commits)
            NumRepos := wrap64 (as.countP inc : Nat) } } := by
  have h0 : wrap64 0 = 0 := by decide
  rw [accumulateAll_eq sel inc as (newEntry au) 0 0 0 0 (by simp [newEntry, Counts.zero, h0])]
  simp [sum64]

/-! ## The worker on a failed fetch -/

/-- C1. When the request of a repository fails, `getStats` returns the nil
pointer together with the error, and the worker, which only logs the error,
panics on `s.AuthorStats`: the merge step fails instead of leaving the four
maps as they were. -/
theorem worker_fetch_error_panics (cut : Cutoffs) (σ : Maps) (repo err : String) :
    getStats cut repo (.error err) = (none, some err) ∧
      worker cut σ repo (.error err) = none :=
  ⟨rfl, rfl⟩

/-! ## Ranking -/

theorem insertBy_perm {α : Type} (less : α → α → Bool) (x : α) (l : List α) :
    List.Perm (insertBy less x l) (x :: l) := by
  induction l with
  | nil => exact List.Perm.refl _
  | cons y ys ih =>
    unfold insertBy
    split
    · exact List.Perm.refl _
    · exact (List.Perm.cons y ih).trans (List.Perm.swap x y ys)

theorem sortSlice_perm {α : Type} (less : α → α → Bool) (l : List α) :
    List.Perm (sortSlice less l) l := by
  induction l with
  | nil => exact List.Perm.refl _
  | cons x xs ih => exact (insertBy_perm less x _).trans (List.Perm.cons x ih)

theorem sortSlice_length {α : Type} (less : α → α → Bool) (l : List α) :
    (sortSlice less l).length = l.length :=
  (sortSlice_perm less l).length_eq

theorem insertBy_sorted {α : Type} (less : α → α → Bool)
    (hasymm : ∀ a b, less a b = true → less b a = false)
    (htrans : ∀ a b c, less a b = true → less b c = true → less a c = true) (x : α)
    (l : List α) (hl : l.Pairwise fun a b => less b a = false) :
    (insertBy less x l).Pairwise fun a b => less b a = false := by
  induction l with
  | nil => simp [insertBy]
  | cons y ys ih =>
    rw [List.pairwise_cons] at hl
    unfold insertBy
    split
    · rename_i hxy
      refine List.Pairwise.cons ?_ (List.Pairwise.cons hl.1 hl.2)
      intro z hz
      rcases List.mem_cons.1 hz with rfl | hz
      · exact hasymm _ _ hxy
      · have hzy := hl.1 z hz
        cases hzx : less z x
        · rfl
        · rw [htrans z x y hzx hxy] at hzy
          exact absurd hzy (by simp)
    · rename_i hxy
      refine List.Pairwise.cons ?_ (ih hl.2)
      intro z hz
      rcases List.mem_cons.1 ((insertBy_perm less x ys).subset hz) with rfl | hz
      · simpa using hxy
      · exact hl.1 z hz

theorem sortSlice_sorted {α : Type} (less : α → α → Bool)
    (hasymm : ∀ a b, less a b = true → less b a = false)
    (htrans : ∀ a b c, less a b = true → less b c = true → less a c = true) (l : List α) :
    (sortSlice less l).Pairwise fun a b => less b a = false := by
  induction l with
  | nil => exact List.Pairwise.nil
  | cons x xs ih => exact insertBy_sorted less hasymm htrans x _ ih

theorem sortSlice_moreCommits (l : List authorRepoStat) :
    (sortSlice moreCommits l).Pairwise fun a b => b.Total.Commits ≤ a.Total.Commits := by
  have h := sortSlice_sorted moreCommits
    (by intro a b; simp only [moreCommits, decide_eq_true_eq, decide_eq_false_iff_not]; omega)
    (by intro a b c; simp only [moreCommits, decide_eq_true_eq]; omega) l
  refine h.imp ?_
  intro a b
  simp only [moreCommits, decide_eq_false_iff_not]
  omega

/-- C2. For a map of fewer than 100 entries (the empty map, a map of 3
authors) the ranking does not return the entries of the map: the slice made
with the length of the map is cut by `[:100]`, beyond its capacity, and the
program panics. -/
theorem ranker_short_panics (m : AggMap) (h : m.length < 100) : ranker m = none := by
  have hl : ¬ 100 ≤ (sortSlice moreCommits (m.map Prod.snd)).length := by
    rw [sortSlice_length, List.length_map]
    omega
  simp only [ranker, sliceTo, hl, if_false]

/-- C2, witness. The ranking of a map of 3 authors panics. -/
theorem ranker_short_panics_witness : authors3.length < 100 ∧ ranker authors3 = none :=
  ⟨by decide, ranker_short_panics authors3 (by decide)⟩

/-- C7. For a map of at least 100 entries the ranking returns exactly 100
entries `out`; together with the entries `rest` that are left out they are a
rearrangement of the entries of the map (each entry returned is an entry of the
map, none is returned twice); `out` is in non-increasing order of commits, and
no entry left out has more commits than an entry returned. -/
theorem ranker_top100 (m : AggMap) (h : 100 ≤ m.length) :
    ∃ out rest, ranker m = some out ∧ out.length = 100 ∧
      List.Perm (out ++ rest) (m.map Prod.snd) ∧
      (out.Pairwise fun a b => b.Total.Commits ≤ a.Total.Commits) ∧
      ∀ x ∈ rest, ∀ y ∈ out, x.Total.Commits ≤ y.Total.Commits := by
  have hl : 100 ≤ (sortSlice moreCommits (m.map Prod.snd)).length := by
    rw [sortSlice_length, List.length_map]
    exact h
  have hs := sortSlice_moreCommits (m.map Prod.snd)
  rw [← List.take_append_drop 100 (sortSlice moreCommits (m.map Prod.snd))] at hs
  rw [List.pairwise_append] at hs
  refine ⟨(sortSlice moreCommits (m.map Prod.snd)).take 100,
    (sortSlice moreCommits (m.map Prod.snd)).drop 100, ?_, ?_, ?_, hs.1, ?_⟩
  · simp only [ranker, sliceTo, hl, if_true]
  · rw [List.length_take]
    omega
  · rw [List.take_append_drop]
    exact sortSlice_perm _ _
  · intro x hx y hy
    exact hs.2.2 y hy x hx

/-- C7, witness. The ranking of a map of 150 authors. -/
theorem ranker_top100_witness :
    100 ≤ authors150.length ∧
      ∃ out rest, ranker authors150 = some out ∧ out.length = 100 ∧
        List.Perm (out ++ rest) (authors150.map Prod.snd) ∧
        (out.Pairwise fun a b => b.Total.Commits ≤ a.Total.Commits) ∧
        ∀ x ∈ rest, ∀ y ∈ out, x.Total.Commits ≤ y.Total.Commits :=
  ⟨by simp [authors150], ranker_top100 authors150 (by simp [authors150])⟩

/-! ## Merging into empty maps -/

theorem rowSteps_empty (cut : Cutoffs) (as : List authorRepoStat) :
    rowSteps cut Row.empty as = some (mergedRow cut as) := by
  cases as with
  | nil => rfl
  | cons a as => exact rowSteps_empty_cons cut a as

theorem mergeAuthors_empty (cut : Cutoffs) (as : List authorRepoStat) :
    ∃ σ, mergeAuthors cut Maps.empty as = some σ ∧
      ∀ key, σ.row key = mergedRow cut (withLogin key as) := by
  have hrow : ∀ key, Maps.empty.row key = Row.empty := fun _ => rfl
  obtain ⟨σ, h1, h2⟩ := mergeAuthors_of_rows cut as Maps.empty
    (by intro key; rw [hrow, rowSteps_empty]; rfl)
  refine ⟨σ, h1, fun key => ?_⟩
  have := h2 key
  rw [hrow, rowSteps_empty, Option.some.injEq] at this
  exact this.symm

theorem mergeRepos_empty (cut : Cutoffs) (rs : List repoStat) :
    ∃ σ, mergeRepos cut Maps.empty rs = some σ ∧
      ∀ key, σ.row key = mergedRow cut (withLogin key (allAuthors rs)) := by
  rw [mergeRepos_eq]
  exact mergeAuthors_empty cut _

theorem mergeRepos_reachable_row {cut : Cutoffs} {rs : List repoStat} {σ : Maps}
    (h : mergeRepos cut Maps.empty rs = some σ) (key : String) :
    σ.row key = mergedRow cut (withLogin key (allAuthors rs)) := by
  obtain ⟨σ1, h1, h2⟩ := mergeRepos_empty cut rs
  rw [h, Option.some.injEq] at h1
  subst h1
  exact h2 key

theorem mergeRepo_reachable {cut : Cutoffs} {rs : List repoStat} {σ : Maps}
    (h : mergeRepos cut Maps.empty rs = some σ) (s : repoStat) :
    ∃ σ', mergeRepo cut σ s = some σ' ∧
      ∀ key, σ'.row key =
        mergedRow cut (withLogin key (allAuthors rs) ++ withLogin key s.AuthorStats) := by
  obtain ⟨σ', h1, h2⟩ := mergeAuthors_empty cut (allAuthors rs ++ s.AuthorStats)
  rw [mergeAuthors_append, ← mergeRepos_eq, h, Option.some_bind] at h1
  refine ⟨σ', h1, fun key => ?_⟩
  rw [h2 key, withLogin_append]

theorem mergedRow_numRepos (cut : Cutoffs) (as : List authorRepoStat) :
    (match (mergedRow cut as).totals with
      | none => 0
      | some e => e.Total.NumRepos) = wrap64 as.length ∧
    (match (mergedRow cut as).lastYear with
      | none => 0
      | some e => e.Total.NumRepos) = wrap64 (as.countP (lastPointAfter cut.yearAgo) : Nat) ∧
    (match (mergedRow cut as).lastMonth with
      | none => 0
      | some e => e.Total.NumRepos) = wrap64 (as.countP (lastPointAfter cut.monthAgo) : Nat) ∧
    (match (mergedRow cut as).lastWeek with
      | none => 0
      | some e => e.Total.NumRepos) = wrap64 (as.countP (lastPointAfter cut.weekAgo) : Nat) := by
  have h0 : wrap64 0 = 0 := by decide
  cases as with
  | nil => simp [mergedRow, Row.empty, h0]
  | cons a as =>
    simp only [mergedRow, accumulateAll_new]
    refine ⟨?_, trivial, trivial, trivial⟩
    simp

theorem repoCount_row (σ : Maps) (key : String) :
    repoCount σ.totals key = (match (σ.row key).totals with
      | none => 0
      | some e => e.Total.NumRepos) ∧
    repoCount σ.lastYear key = (match (σ.row key).lastYear with
      | none => 0
      | some e => e.Total.NumRepos) ∧
    repoCount σ.lastMonth key = (match (σ.row key).lastMonth with
      | none => 0
      | some e => e.Total.NumRepos) ∧
    repoCount σ.lastWeek key = (match (σ.row key).lastWeek with
      | none => 0
      | some e => e.Total.NumRepos) :=
  ⟨rfl, rfl, rfl, rfl⟩

theorem repoCount_reachable {cut : Cutoffs} {rs : List repoStat} {σ : Maps}
    (h : mergeRepos cut Maps.empty rs = some σ) (key : String) :
    repoCount σ.totals key = wrap64 (withLogin key (allAuthors rs)).length ∧
    repoCount σ.lastYear key =
      wrap64 ((withLogin key (allAuthors rs)).countP (lastPointAfter cut.yearAgo) : Nat) ∧
    repoCount σ.lastMonth key =
      wrap64 ((withLogin key (allAuthors rs)).countP (lastPointAfter cut.monthAgo) : Nat) ∧
    repoCount σ.lastWeek key =
      wrap64 ((withLogin key (allAuthors rs)).countP (lastPointAfter cut.weekAgo) : Nat) := by
  have hr := repoCount_row σ key
  rw [mergeRepos_reachable_row h key] at hr
  have hm := mergedRow_numRepos cut (withLogin key (allAuthors rs))
  exact ⟨hr.1.trans hm.1, hr.2.1.trans hm.2.1, hr.2.2.1.trans hm.2.2.1,
    hr.2.2.2.trans hm.2.2.2⟩

theorem repoCount_after {cut : Cutoffs} {rs : List repoStat} {σ : Maps}
    (h : mergeRepos cut Maps.empty rs = some σ) (s : repoStat) (key : String) :
    ∃ σ', mergeRepo cut σ s = some σ' ∧
      repoCount σ'.totals key =
        wrap64 (repoCount σ.totals key + (withLogin key s.AuthorStats).length) ∧
      repoCount σ'.lastYear key =
        wrap64 (repoCount σ.lastYear key +
          ((withLogin key s.AuthorStats).countP (lastPointAfter cut.yearAgo) : Nat)) ∧
      repoCount σ'.lastMonth key =
        wrap64 (repoCount σ.lastMonth key +
          ((withLogin key s.AuthorStats).countP (lastPointAfter cut.monthAgo) : Nat)) ∧
      repoCount σ'.lastWeek key =
        wrap64 (repoCount σ.lastWeek key +
          ((withLogin key s.AuthorStats).countP (lastPointAfter cut.weekAgo) : Nat)) := by
  obtain ⟨σ', h1, h2⟩ := mergeRepo_reachable h s
  have hr := repoCount_row σ' key
  rw [h2 key] at hr
  have hm := mergedRow_numRepos cut
    (withLogin key (allAuthors rs) ++ withLogin key s.AuthorStats)
  have h0 := repoCount_reachable h key
  refine ⟨σ', h1, ?_, ?_, ?_, ?_⟩
  · rw [hr.1, hm.1, h0.1, wrap64_add_left, List.length_append, Nat.cast_add]
  · rw [hr.2.1, hm.2.1, h0.2.1, wrap64_add_left, List.countP_append, Nat.cast_add]
  · rw [hr.2.2.1, hm.2.2.1, h0.2.2.1, wrap64_add_left, List.countP_append, Nat.cast_add]
  · rw [hr.2.2.2, hm.2.2.2, h0.2.2.2, wrap64_add_left, List.countP_append, Nat.cast_add]

/-! ## The aggregated sums -/

theorem mem_allAuthors {a : authorRepoStat} {rs : List repoStat} :
    a ∈ allAuthors rs ↔ ∃ s ∈ rs, a ∈ s.AuthorStats := by
  induction rs with
  | nil => simp [allAuthors]
  | cons s rs ih => simp [allAuthors, ih]

theorem withLogin_allAuthors_ne_nil {login : String} {rs : List repoStat} :
    withLogin login (allAuthors rs) ≠ [] ↔
      ∃ s ∈ rs, ∃ a ∈ s.AuthorStats, a.Author.Login = login := by
  rw [ne_eq, List.eq_nil_iff_forall_not_mem]
  constructor
  · intro h
    by_contra hc
    apply h
    intro a ha
    rw [mem_withLogin, mem_allAuthors] at ha
    obtain ⟨⟨s, hs, has⟩, hl⟩ := ha
    exact hc ⟨s, hs, a, has, hl⟩
  · rintro ⟨s, hs, a, has, hl⟩ h
    exact h a (mem_withLogin.2 ⟨mem_allAuthors.2 ⟨s, hs, has⟩, hl⟩)

theorem mergedRow_isSome (cut : Cutoffs) (as : List authorRepoStat) :
    ((mergedRow cut as).totals.isSome ↔ as ≠ []) ∧
    ((mergedRow cut as).lastYear.isSome ↔ as ≠ []) ∧
    ((mergedRow cut as).lastMonth.isSome ↔ as ≠ []) ∧
    ((mergedRow cut as).lastWeek.isSome ↔ as ≠ []) := by
  cases as <;> simp [mergedRow, Row.empty]

theorem mergedRow_sums (cut : Cutoffs) (as : List authorRepoStat) :
    (∀ e, (mergedRow cut as).totals = some e →
      e.Total.Commits = sum64 (as.map fun a => a.Total.Commits) ∧
      e.Total.Additions = sum64 (as.map fun a => a.Total.Additions) ∧
      e.Total.Deletions = sum64 (as.map fun a => a.Total.Deletions)) ∧
    (∀ e, (mergedRow cut as).lastYear = some e →
      e.Total.Commits = sum64 (as.map fun a => a.LastYear.Commits) ∧
      e.Total.Additions = sum64 (as.map fun a => a.LastYear.Additions) ∧
      e.Total.Deletions = sum64 (as.map fun a => a.LastYear.Deletions)) ∧
    (∀ e, (mergedRow cut as).lastMonth = some e →
      e.Total.Commits = sum64 (as.map fun a => a.LastMonth.Commits) ∧
      e.Total.Additions = sum64 (as.map fun a => a.LastMonth.Additions) ∧
      e.Total.Deletions = sum64 (as.map fun a => a.LastMonth.Deletions)) ∧
    (∀ e, (mergedRow cut as).lastWeek = some e →
      e.Total.Commits = sum64 (as.map fun a => a.LastWeek.Commits) ∧
      e.Total.Additions = sum64 (as.map fun a => a.LastWeek.Additions) ∧
      e.Total.Deletions = sum64 (as.map fun a => a.LastWeek.Deletions)) := by
  cases as with
  | nil => simp [mergedRow, Row.empty]
  | cons a as =>
    simp only [mergedRow, accumulateAll_new, Option.some.injEq]
    refine ⟨?_, ?_, ?_, ?_⟩ <;> (intro e he; subst he; exact ⟨rfl, rfl, rfl⟩)

/-- C4. The merge of any list of fetched repositories into empty maps
succeeds, and for every login: the login is a key of each of the four maps if
and only if some author entry of some merged repository carries it; and the
commits, additions and deletions stored under it in the all-time, last-year,
last-month and last-week map are the (`int64`) sums, over all author entries
with that login in all merged repositories, of the `Total`, `LastYear`,
`LastMonth` and `LastWeek` commits, additions and deletions of the entry. The
`int64` sum is the exact sum whenever the exact sum is an `int64`. -/
theorem merged_sums (cut : Cutoffs) (rs : List repoStat) :
    (∃ σ, mergeRepos cut Maps.empty rs = some σ ∧
      ∀ login,
        ((mapGet σ.totals login).isSome ↔
          ∃ s ∈ rs, ∃ a ∈ s.AuthorStats, a.Author.Login = login) ∧
        ((mapGet σ.lastYear login).isSome ↔
          ∃ s ∈ rs, ∃ a ∈ s.AuthorStats, a.Author.Login = login) ∧
        ((mapGet σ.lastMonth login).isSome ↔
          ∃ s ∈ rs, ∃ a ∈ s.AuthorStats, a.Author.Login = login) ∧
        ((mapGet σ.lastWeek login).isSome ↔
          ∃ s ∈ rs, ∃ a ∈ s.AuthorStats, a.Author.Login = login) ∧
        storesSums σ.totals login authorRepoStat.Total (withLogin login (allAuthors rs)) ∧
        storesSums σ.lastYear login authorRepoStat.LastYear (withLogin login (allAuthors rs)) ∧
        storesSums σ.lastMonth login authorRepoStat.LastMonth
          (withLogin login (allAuthors rs)) ∧
        storesSums σ.lastWeek login authorRepoStat.LastWeek (withLogin login (allAuthors rs)))
      ∧ ∀ xs : List Int, inInt64 xs.sum → sum64 xs = xs.sum := by
  refine ⟨?_, fun xs h => wrap64_of_inInt64 h⟩
  obtain ⟨σ, h1, h2⟩ := mergeRepos_empty cut rs
  refine ⟨σ, h1, fun login => ?_⟩
  have hr := h2 login
  have hk := mergedRow_isSome cut (withLogin login (allAuthors rs))
  have hv := mergedRow_sums cut (withLogin login (allAuthors rs))
  rw [← hr] at hk hv
  simp only [withLogin_allAuthors_ne_nil] at hk
  exact ⟨hk.1, hk.2.1, hk.2.2.1, hk.2.2.2, hv.1, hv.2.1, hv.2.2.1, hv.2.2.2⟩

/-! ## The repository counts -/

theorem add64_one_of_lt {x : Int} (h : inInt64 x) (hmax : x ≠ 2 ^ 63 - 1) :
    add64 x 1 = x + 1 := by
  unfold inInt64 at h
  unfold add64 wrap64
  omega

theorem countP_le_one_eq_any (p : authorRepoStat → Bool) (es : List authorRepoStat)
    (h : es.length ≤ 1) : es.countP p = if es.any p then 1 else 0 := by
  match es, h with
  | [], _ => rfl
  | [a], _ => cases hp : p a <;> simp [List.countP_cons, hp]
  | _ :: _ :: _, h => simp at h

theorem lastPointAfter_hasPoints {cutoff : Time} {a : authorRepoStat}
    (h : lastPointAfter cutoff a = true) : hasPoints a = true := by
  unfold lastPointAfter at h
  unfold hasPoints
  cases hw : a.Weeks with
  | nil => simp [hw] at h
  | cons w ws => rfl

/-- C5, counterexample. The repository `twiceListedRepo` lists `bob` in two
author entries, each with a non-empty series whose last point is after the
three cutoffs; its merge into empty maps raises the last-year, last-month and
last-week `NumRepos` of `bob` from 0 to 2, not by exactly 1. -/
theorem numRepos_window_twice_listed :
    (withLogin "bob" twiceListedRepo.AuthorStats).length = 2 ∧
      (∀ a ∈ twiceListedRepo.AuthorStats,
        lastPointAfter demoCut.yearAgo a = true ∧ lastPointAfter demoCut.monthAgo a = true ∧
        lastPointAfter demoCut.weekAgo a = true) ∧
      (repoCount Maps.empty.lastYear "bob", repoCount Maps.empty.lastMonth "bob",
        repoCount Maps.empty.lastWeek "bob") = (0, 0, 0) ∧
      (mergeRepo demoCut Maps.empty twiceListedRepo).map
        (fun σ => (repoCount σ.lastYear "bob", repoCount σ.lastMonth "bob",
          repoCount σ.lastWeek "bob")) = some (2, 2, 2) := by
  decide

/-- C5, amended. In a state reached by merging repositories into empty maps,
let one more repository be merged that lists the login at most once. The merge
succeeds and, for each of the last-year, last-month and last-week maps, the
`NumRepos` of the login is incremented (`++`) exactly when the weekly series of
the login in this repository is not empty and the week start time
`time.Unix(WeekStart, 0)` of its last point is strictly after the cutoff of the
window, and is unchanged otherwise; earlier points of the series play no part.
The increment is by exactly one unless the count is the largest `int64`. -/
theorem numRepos_window_increment (cut : Cutoffs) (rs : List repoStat) (σ : Maps)
    (s : repoStat) (login : String) (hσ : mergeRepos cut Maps.empty rs = some σ)
    (hs : (withLogin login s.AuthorStats).length ≤ 1) :
    (∃ σ', mergeRepo cut σ s = some σ' ∧
      repoCount σ'.lastYear login =
        (if (withLogin login s.AuthorStats).any (lastPointAfter cut.yearAgo) then
          add64 (repoCount σ.lastYear login) 1
        else repoCount σ.lastYear login) ∧
      repoCount σ'.lastMonth login =
        (if (withLogin login s.AuthorStats).any (lastPointAfter cut.monthAgo) then
          add64 (repoCount σ.lastMonth login) 1
        else repoCount σ.lastMonth login) ∧
      repoCount σ'.lastWeek login =
        (if (withLogin login s.AuthorStats).any (lastPointAfter cut.weekAgo) then
          add64 (repoCount σ.lastWeek login) 1
        else repoCount σ.lastWeek login))
      ∧ ∀ x : Int, inInt64 x → x ≠ 2 ^ 63 - 1 → add64 x 1 = x + 1 := by
  refine ⟨?_, fun x h1 h2 => add64_one_of_lt h1 h2⟩
  obtain ⟨σ', h1, -, hy, hm, hw⟩ := repoCount_after hσ s login
  have h0 := repoCount_reachable hσ login
  refine ⟨σ', h1, ?_, ?_, ?_⟩
  · rw [hy, countP_le_one_eq_any _ _ hs]
    split_ifs
    · rfl
    · rw [h0.2.1, Nat.cast_zero, add_zero, wrap64_idem]
  · rw [hm, countP_le_one_eq_any _ _ hs]
    split_ifs
    · rfl
    · rw [h0.2.2.1, Nat.cast_zero, add_zero, wrap64_idem]
  · rw [hw, countP_le_one_eq_any _ _ hs]
    split_ifs
    · rfl
    · rw [h0.2.2.2, Nat.cast_zero, add_zero, wrap64_idem]

/-- C5, witness. The merge of `demoRepo` into the state reached by a first merge
of `demoRepo`: the last point of `ann` is four days old, and her three counts
go from 1 to 2. -/
theorem numRepos_window_increment_witness :
    mergeRepos demoCut Maps.empty [demoRepo] = some demoState ∧
      (withLogin "ann" demoRepo.AuthorStats).length ≤ 1 ∧
      ∃ σ', mergeRepo demoCut demoState demoRepo = some σ' ∧
        repoCount σ'.lastYear "ann" = 2 ∧ repoCount σ'.lastMonth "ann" = 2 ∧
        repoCount σ'.lastWeek "ann" = 2 := by
  have hσ : mergeRepos demoCut Maps.empty [demoRepo] = some demoState := by decide
  have hs : (withLogin "ann" demoRepo.AuthorStats).length ≤ 1 := by decide
  obtain ⟨σ', h1, hy, hm, hw⟩ :=
    (numRepos_window_increment demoCut [demoRepo] demoState demoRepo "ann" hσ hs).1
  refine ⟨hσ, hs, σ', h1, ?_, ?_, ?_⟩
  · rw [hy]; decide
  · rw [hm]; decide
  · rw [hw]; decide

/-- C6, counterexample. The repository `emptySeriesRepo` lists `bob` with an
empty weekly series; its merge into empty maps raises the all-time `NumRepos`
of `bob` from 0 to 1. The repository `twiceListedRepo` lists `bob` in two author
entries with weekly points; its merge into empty maps raises the all-time
`NumRepos` of `bob` from 0 to 2, not by exactly 1. -/
theorem numRepos_total_empty_series :
    ((∀ a ∈ emptySeriesRepo.AuthorStats, a.Weeks = []) ∧
      repoCount Maps.empty.totals "bob" = 0 ∧
      (mergeRepo demoCut Maps.empty emptySeriesRepo).map (fun σ => repoCount σ.totals "bob") =
        some 1) ∧
      (∀ a ∈ twiceListedRepo.AuthorStats, a.Author.Login = "bob" ∧ a.Weeks ≠ []) ∧
      (mergeRepo demoCut Maps.empty twiceListedRepo).map (fun σ => repoCount σ.totals "bob") =
        some 2 := by
  decide

/-- C6, amended. In a state reached by merging repositories into empty maps,
let one more repository be merged that lists the login at most once. The merge
succeeds and the all-time `NumRepos` of the login is incremented (`++`) exactly
when the repository has an author entry for the login, whatever the age of its
weekly points and also when its weekly series is empty; it is unchanged when
the repository has no entry for the login. The increment is by exactly one
unless the count is the largest `int64`. -/
theorem numRepos_total_increment (cut : Cutoffs) (rs : List repoStat) (σ : Maps)
    (s : repoStat) (login : String) (hσ : mergeRepos cut Maps.empty rs = some σ)
    (hs : (withLogin login s.AuthorStats).length ≤ 1) :
    (∃ σ', mergeRepo cut σ s = some σ' ∧
      repoCount σ'.totals login =
        (if withLogin login s.AuthorStats = [] then repoCount σ.totals login
        else add64 (repoCount σ.totals login) 1))
      ∧ ∀ x : Int, inInt64 x → x ≠ 2 ^ 63 - 1 → add64 x 1 = x + 1 := by
  refine ⟨?_, fun x h1 h2 => add64_one_of_lt h1 h2⟩
  obtain ⟨σ', h1, ht, -⟩ := repoCount_after hσ s login
  have h0 := repoCount_reachable hσ login
  refine ⟨σ', h1, ?_⟩
  rw [ht]
  match hes : withLogin login s.AuthorStats, hs with
  | [], _ => rw [if_pos rfl, h0.1, List.length_nil, Nat.cast_zero, add_zero, wrap64_idem]
  | [a], _ => rw [if_neg (by simp)]; rfl
  | _ :: _ :: _, h => simp at h

/-- C6, witness. The merge of `emptySeriesRepo` after `demoRepo`: the all-time
count of `bob` goes from 1 to 2. -/
theorem numRepos_total_increment_witness :
    mergeRepos demoCut Maps.empty [demoRepo] = some demoState ∧
      (withLogin "bob" emptySeriesRepo.AuthorStats).length ≤ 1 ∧
      repoCount demoState.totals "bob" = 1 ∧
      ∃ σ', mergeRepo demoCut demoState emptySeriesRepo = some σ' ∧
        repoCount σ'.totals "bob" = 2 := by
  have hσ : mergeRepos demoCut Maps.empty [demoRepo] = some demoState := by decide
  have hs : (withLogin "bob" emptySeriesRepo.AuthorStats).length ≤ 1 := by decide
  obtain ⟨σ', h1, ht⟩ :=
    (numRepos_total_increment demoCut [demoRepo] demoState emptySeriesRepo "bob" hσ hs).1
  refine ⟨hσ, hs, by decide, σ', h1, ?_⟩
  rw [ht]
  decide

theorem countP_le_any (inc p : authorRepoStat → Bool) (es : List authorRepoStat)
    (h : es.length ≤ 1) (hp : ∀ a, inc a = true → p a = true) :
    es.countP inc ≤ if es.any p then 1 else 0 := by
  match es, h with
  | [], _ => simp
  | [a], _ =>
    cases hi : inc a
    · simp [List.countP_cons, hi]
    · simp [List.countP_cons, hi, hp a hi]
  | _ :: _ :: _, h => simp at h

theorem countP_allAuthors_le (inc p : authorRepoStat → Bool) (login : String)
    (rs : List repoStat) (hrs : ∀ s ∈ rs, (withLogin login s.AuthorStats).length ≤ 1)
    (hp : ∀ a, inc a = true → p a = true) :
    (withLogin login (allAuthors rs)).countP inc ≤ reposWith p login rs := by
  induction rs with
  | nil => simp [allAuthors, withLogin]
  | cons s rs ih =>
    have h1 := countP_le_any inc p (withLogin login s.AuthorStats)
      (hrs s (List.mem_cons_self _ _)) hp
    have h2 := ih fun s hs => hrs s (List.mem_cons_of_mem _ hs)
    rw [allAuthors, withLogin_append, List.countP_append]
    unfold reposWith at h2 ⊢
    rw [List.countP_cons]
    omega

/-- C10, counterexample. After the merge of `emptySeriesRepo` alone the
all-time `NumRepos` of `bob` is 1, while `bob` has a weekly point in none of the
merged repositories. -/
theorem repoCount_exceeds_contributions :
    reposWith hasPoints "bob" [emptySeriesRepo] = 0 ∧
      (mergeRepos demoCut Maps.empty [emptySeriesRepo]).map
        (fun σ => repoCount σ.totals "bob") = some 1 := by
  decide

theorem withLogin_length_le_one (login : String) (as : List authorRepoStat)
    (h : (as.map fun a => a.Author.Login).Nodup) : (withLogin login as).length ≤ 1 := by
  induction as with
  | nil => simp [withLogin]
  | cons a as ih =>
    rw [List.map_cons, List.nodup_cons] at h
    by_cases hk : a.Author.Login = login
    · subst hk
      have e : withLogin a.Author.Login as = [] := by
        rw [List.eq_nil_iff_forall_not_mem]
        intro b hb
        rw [mem_withLogin] at hb
        exact h.1 (List.mem_map.2 ⟨b, hb.1, hb.2⟩)
      rw [withLogin_cons_self, e]
      simp
    · rw [withLogin_cons_ne hk]
      exact ih h.2

/-- C10, amended. When no merged repository lists a login twice, the merge
into empty maps succeeds and for every login: the all-time `NumRepos` is at most
the number of merged repositories that list the login (with or without weekly
points), and the `NumRepos` of the last-year, last-month and last-week map is at
most the number of merged repositories in which the login has at least one
weekly point. -/
theorem repoCount_bounded (cut : Cutoffs) (rs : List repoStat)
    (hrs : ∀ s ∈ rs, (s.AuthorStats.map fun a => a.Author.Login).Nodup) :
    ∃ σ, mergeRepos cut Maps.empty rs = some σ ∧
      ∀ login,
        repoCount σ.totals login ≤ reposWith (fun _ => true) login rs ∧
        repoCount σ.lastYear login ≤ reposWith hasPoints login rs ∧
        repoCount σ.lastMonth login ≤ reposWith hasPoints login rs ∧
        repoCount σ.lastWeek login ≤ reposWith hasPoints login rs := by
  obtain ⟨σ, h1, -⟩ := mergeRepos_empty cut rs
  refine ⟨σ, h1, fun login => ?_⟩
  have h0 := repoCount_reachable h1 login
  have hl : ∀ n : Nat, wrap64 (n : Int) ≤ (n : Int) := fun n =>
    wrap64_le_self (le_trans (by norm_num) (Int.natCast_nonneg n))
  have hlen : (withLogin login (allAuthors rs)).length =
      (withLogin login (allAuthors rs)).countP fun _ => true := by
    simp
  have hone : ∀ s ∈ rs, (withLogin login s.AuthorStats).length ≤ 1 := fun s hs =>
    withLogin_length_le_one login _ (hrs s hs)
  have ht := countP_allAuthors_le (fun _ => true) (fun _ => true) login rs hone (fun _ h => h)
  have hy := countP_allAuthors_le (lastPointAfter cut.yearAgo) hasPoints login rs hone
    (fun _ h => lastPointAfter_hasPoints h)
  have hm := countP_allAuthors_le (lastPointAfter cut.monthAgo) hasPoints login rs hone
    (fun _ h => lastPointAfter_hasPoints h)
  have hw := countP_allAuthors_le (lastPointAfter cut.weekAgo) hasPoints login rs hone
    (fun _ h => lastPointAfter_hasPoints h)
  rw [← hlen] at ht
  rw [h0.1, h0.2.1, h0.2.2.1, h0.2.2.2]
  exact ⟨(hl _).trans (by exact_mod_cast ht), (hl _).trans (by exact_mod_cast hy),
    (hl _).trans (by exact_mod_cast hm), (hl _).trans (by exact_mod_cast hw)⟩

/-- C10, witness. The merge of `demoRepo` and `emptySeriesRepo`: no login is
listed twice by one repository. -/
theorem repoCount_bounded_witness :
    (∀ s ∈ [demoRepo, emptySeriesRepo], (s.AuthorStats.map fun a => a.Author.Login).Nodup) ∧
      ∃ σ, mergeRepos demoCut Maps.empty [demoRepo, emptySeriesRepo] = some σ ∧
        ∀ login,
          repoCount σ.totals login ≤
            reposWith (fun _ => true) login [demoRepo, emptySeriesRepo] ∧
          repoCount σ.lastYear login ≤ reposWith hasPoints login [demoRepo, emptySeriesRepo] ∧
          repoCount σ.lastMonth login ≤ reposWith hasPoints login [demoRepo, emptySeriesRepo] ∧
          repoCount σ.lastWeek login ≤ reposWith hasPoints login [demoRepo, emptySeriesRepo] :=
  ⟨by decide, repoCount_bounded demoCut [demoRepo, emptySeriesRepo] (by decide)⟩

/-! ## Commutativity of the merge -/

theorem accumulate_comm (e : authorRepoStat) (c1 c2 : Counts) (i1 i2 : Bool) :
    accumulate (accumulate e c1 i1) c2 i2 = accumulate (accumulate e c2 i2) c1 i1 := by
  cases i1 <;> cases i2 <;>
    simp [accumulate, add64_right_comm _ c1.Commits, add64_right_comm _ c1.Additions,
      add64_right_comm _ c1.Deletions]

theorem rowStep_comm (cut : Cutoffs) (a b : authorRepoStat) (r : Row)
    (h : a.Author = b.Author) :
    (rowStep cut a r).bind (rowStep cut b) = (rowStep cut b r).bind (rowStep cut a) := by
  obtain ⟨t, y, m, w⟩ := r
  cases t with
  | none =>
    simp [rowStep, h, accumulate_comm _ a.Total, accumulate_comm _ a.LastYear,
      accumulate_comm _ a.LastMonth, accumulate_comm _ a.LastWeek]
  | some t =>
    cases y <;> cases m <;> cases w <;>
      simp [rowStep, accumulate_comm _ a.Total, accumulate_comm _ a.LastYear,
        accumulate_comm _ a.LastMonth, accumulate_comm _ a.LastWeek]

theorem rowSteps_comm_one (cut : Cutoffs) (a : authorRepoStat) (bs : List authorRepoStat)
    (r : Row) (h : ∀ b ∈ bs, a.Author = b.Author) :
    ((rowStep cut a r).bind fun r1 => rowSteps cut r1 bs) =
      (rowSteps cut r bs).bind (rowStep cut a) := by
  induction bs generalizing r with
  | nil => simp [rowSteps]
  | cons b bs ih =>
    have hb := h b (List.mem_cons_self _ _)
    have hbs : ∀ x ∈ bs, a.Author = x.Author := fun x hx => h x (List.mem_cons_of_mem _ hx)
    simp only [rowSteps]
    rw [← Option.bind_assoc, rowStep_comm cut a b r hb, Option.bind_assoc, Option.bind_assoc]
    congr 1
    funext r1
    exact ih r1 hbs

theorem rowSteps_comm (cut : Cutoffs) (as bs : List authorRepoStat) (r : Row)
    (h : ∀ a ∈ as, ∀ b ∈ bs, a.Author = b.Author) :
    rowSteps cut r (as ++ bs) = rowSteps cut r (bs ++ as) := by
  induction as generalizing r with
  | nil => simp
  | cons a as ih =>
    have ha := h a (List.mem_cons_self _ _)
    have has : ∀ x ∈ as, ∀ b ∈ bs, x.Author = b.Author := fun x hx =>
      h x (List.mem_cons_of_mem _ hx)
    rw [List.cons_append, rowSteps]
    simp only [ih _ has, rowSteps_append]
    rw [← Option.bind_assoc, rowSteps_comm_one cut a bs r ha, Option.bind_assoc]
    rfl

theorem rowSteps_withLogin_comm (cut : Cutoffs) (as bs : List authorRepoStat) (r : Row)
    (key : String)
    (h : ∀ a ∈ as, ∀ b ∈ bs, a.Author.Login = b.Author.Login → a.Author = b.Author) :
    rowSteps cut r (withLogin key (as ++ bs)) = rowSteps cut r (withLogin key (bs ++ as)) := by
  rw [withLogin_append, withLogin_append]
  apply rowSteps_comm
  intro a ha b hb
  rw [mem_withLogin] at ha hb
  exact h a ha.1 b hb.1 (ha.2.trans hb.2.symm)

theorem mergeAuthors_comm (cut : Cutoffs) (σ : Maps) (as bs : List authorRepoStat)
    (h : ∀ a ∈ as, ∀ b ∈ bs, a.Author.Login = b.Author.Login → a.Author = b.Author) :
    (mergeAuthors cut σ (as ++ bs)).map Maps.row = (mergeAuthors cut σ (bs ++ as)).map Maps.row := by
  have hk := fun key => rowSteps_withLogin_comm cut as bs (σ.row key) key h
  rcases h1 : mergeAuthors cut σ (as ++ bs) with _ | σ1 <;>
    rcases h2 : mergeAuthors cut σ (bs ++ as) with _ | σ2
  · rfl
  · obtain ⟨key, hn⟩ := mergeAuthors_none_rows cut _ σ h1
    have hs := mergeAuthors_some_rows cut _ σ σ2 h2 key
    rw [hk key, hs] at hn
    exact absurd hn (by simp)
  · obtain ⟨key, hn⟩ := mergeAuthors_none_rows cut _ σ h2
    have hs := mergeAuthors_some_rows cut _ σ σ1 h1 key
    rw [← hk key, hs] at hn
    exact absurd hn (by simp)
  · simp only [Option.map_some', Option.some.injEq]
    funext key
    have s1 := mergeAuthors_some_rows cut _ σ σ1 h1 key
    have s2 := mergeAuthors_some_rows cut _ σ σ2 h2 key
    rw [hk key, s2, Option.some.injEq] at s1
    exact s1.symm

/-- C9. From every state of the four maps and for every two fetched
repositories in which one login always carries the same author identity,
merging the first and then the second has the same outcome as merging the
second and then the first: both orders fail (on a login that `totals` knows and
another map does not), or both succeed and the four lookups `totals[login]`,
`lastYear[login]`, `lastMonth[login]`, `lastWeek[login]` give the same entry
(identity, commits, additions, deletions, `NumRepos`), or no entry, for every
login. -/
theorem mergeRepo_comm (cut : Cutoffs) (σ : Maps) (s1 s2 : repoStat)
    (hid : ∀ a ∈ s1.AuthorStats, ∀ b ∈ s2.AuthorStats,
      a.Author.Login = b.Author.Login → a.Author = b.Author) :
    ((mergeRepo cut σ s1).bind fun σ1 => mergeRepo cut σ1 s2).map Maps.row =
      ((mergeRepo cut σ s2).bind fun σ2 => mergeRepo cut σ2 s1).map Maps.row := by
  have h := mergeAuthors_comm cut σ s1.AuthorStats s2.AuthorStats hid
  rw [mergeAuthors_append, mergeAuthors_append] at h
  exact h

/-- C9, witness. The merges of `demoRepo` and `emptySeriesRepo`, which both list
`bob`, into the state reached by a merge of `demoRepo`. -/
theorem mergeRepo_comm_witness :
    (∀ a ∈ demoRepo.AuthorStats, ∀ b ∈ emptySeriesRepo.AuthorStats,
        a.Author.Login = b.Author.Login → a.Author = b.Author) ∧
      ((mergeRepo demoCut demoState demoRepo).bind fun σ1 =>
          mergeRepo demoCut σ1 emptySeriesRepo).map Maps.row =
        ((mergeRepo demoCut demoState emptySeriesRepo).bind fun σ2 =>
          mergeRepo demoCut σ2 demoRepo).map Maps.row :=
  ⟨by decide, mergeRepo_comm demoCut demoState demoRepo emptySeriesRepo (by decide)⟩

/-! ## Narrower windows against the all-time totals -/

/-- C8, counterexample. With a weekly point of -5 commits that is two years
old, `getStats` gives 0 last-year commits and -5 all-time commits; with a point
of one commit two years ago and a point of `2^63 - 1` commits four days ago it
gives `2^63 - 1` last-year commits and, by overflow, `-2^63` all-time commits. -/
theorem window_exceeds_total :
    ((getStats demoCut "lib" (.ok [negativeSeries])).1.map fun s =>
        s.AuthorStats.map fun a => (a.LastYear.Commits, a.Total.Commits)) = some [(0, -5)] ∧
      ((getStats demoCut "lib" (.ok [overflowSeries])).1.map fun s =>
        s.AuthorStats.map fun a => (a.LastYear.Commits, a.Total.Commits)) =
          some [(9223372036854775807, -9223372036854775808)] := by
  decide

theorem sum_map_bounds {α : Type} (l : List α) (Y T : α → Int)
    (h : ∀ x ∈ l, 0 ≤ Y x ∧ Y x ≤ T x) :
    0 ≤ (l.map Y).sum ∧ (l.map Y).sum ≤ (l.map T).sum ∧ ∀ x ∈ l, T x ≤ (l.map T).sum := by
  induction l with
  | nil => simp
  | cons a l ih =>
    have ha := h a (List.mem_cons_self _ _)
    obtain ⟨i1, i2, i3⟩ := ih fun x hx => h x (List.mem_cons_of_mem _ hx)
    simp only [List.map_cons, List.sum_cons]
    refine ⟨by omega, by omega, ?_⟩
    intro x hx
    rcases List.mem_cons.1 hx with rfl | hx
    · omega
    · have := i3 x hx
      omega

theorem sum_filter_bounds (ws : List Week) (p : Week → Bool) (f : Week → Int)
    (h : ∀ w ∈ ws, 0 ≤ f w) :
    0 ≤ ((ws.filter p).map f).sum ∧ ((ws.filter p).map f).sum ≤ (ws.map f).sum := by
  induction ws with
  | nil => simp
  | cons w ws ih =>
    have hw := h w (List.mem_cons_self _ _)
    obtain ⟨i1, i2⟩ := ih fun x hx => h x (List.mem_cons_of_mem _ hx)
    cases hp : p w <;> simp only [List.filter_cons, hp, List.map_cons, List.sum_cons] <;>
      constructor <;> simp <;> omega

theorem sum64_wrap_le {α : Type} (l : List α) (Y T : α → Int)
    (h : ∀ x ∈ l, 0 ≤ Y x ∧ Y x ≤ T x) (hfit : (l.map T).sum < 2 ^ 63) :
    sum64 (l.map fun x => wrap64 (Y x)) ≤ sum64 (l.map fun x => wrap64 (T x)) := by
  obtain ⟨i1, i2, i3⟩ := sum_map_bounds l Y T h
  obtain ⟨j1, -, -⟩ := sum_map_bounds l T T fun x hx => ⟨(h x hx).1.trans (h x hx).2, le_refl _⟩
  have eY : (l.map fun x => wrap64 (Y x)) = l.map Y := by
    apply List.map_congr_left
    intro x hx
    have := h x hx
    have := i3 x hx
    exact wrap64_of_inInt64 ⟨by omega, by omega⟩
  have eT : (l.map fun x => wrap64 (T x)) = l.map T := by
    apply List.map_congr_left
    intro x hx
    have := h x hx
    have := i3 x hx
    exact wrap64_of_inInt64 ⟨by omega, by omega⟩
  rw [eY, eT, sum64, sum64, wrap64_of_inInt64 ⟨by omega, by omega⟩,
    wrap64_of_inInt64 ⟨by omega, by omega⟩]
  exact i2

theorem getStats_ok (cut : Cutoffs) (r : String × List Contributor) :
    getStats cut r.1 (.ok r.2) = (some (fetched cut r), none) := rfl

theorem runWorkers_ok (cut : Cutoffs) (resps : List (String × List Contributor)) (σ : Maps) :
    runWorkers cut σ (resps.map fun r => (r.1, .ok r.2)) =
      mergeRepos cut σ (resps.map (fetched cut)) := by
  induction resps generalizing σ with
  | nil => rfl
  | cons r rs ih =>
    simp only [List.map_cons, runWorkers, mergeRepos, worker, getStats_ok]
    cases mergeRepo cut σ (fetched cut r) with
    | none => rfl
    | some σ1 => exact ih σ1

theorem mem_contributorsOf {login : String} {c : Contributor}
    {resps : List (String × List Contributor)} :
    c ∈ contributorsOf login resps ↔ (∃ r ∈ resps, c ∈ r.2) ∧ c.Author.Login = login := by
  induction resps with
  | nil => simp [contributorsOf]
  | cons r rs ih =>
    simp only [contributorsOf, List.mem_append, List.mem_filter, decide_eq_true_eq, ih,
      List.mem_cons, exists_eq_or_imp]
    tauto

theorem withLogin_fetched (cut : Cutoffs) (login : String)
    (resps : List (String × List Contributor)) :
    withLogin login (allAuthors (resps.map (fetched cut))) =
      (contributorsOf login resps).map fun c => sumWeeks cut c.decode := by
  induction resps with
  | nil => rfl
  | cons r rs ih =>
    simp only [List.map_cons, allAuthors, withLogin_append, ih, contributorsOf, List.map_append]
    congr 1
    simp only [withLogin, fetched, List.map_map, List.filter_map]
    congr 1
    apply List.filter_congr
    intro c _
    simp [sumWeeks_decode]

theorem windowSum_le_total (cs : List Contributor) (f : Week → Int) (p : Week → Bool)
    (hnn : ∀ c ∈ cs, ∀ w ∈ c.Weeks, 0 ≤ f w) (hfit : exactSum f cs < 2 ^ 63) :
    (∀ c ∈ cs, windowSum p f c.Weeks ≤ windowSum (fun _ => true) f c.Weeks) ∧
      sum64 (cs.map fun c => windowSum p f c.Weeks) ≤
        sum64 (cs.map fun c => windowSum (fun _ => true) f c.Weeks) := by
  have hb : ∀ c ∈ cs, 0 ≤ ((c.Weeks.filter p).map f).sum ∧
      ((c.Weeks.filter p).map f).sum ≤ (c.Weeks.map f).sum := fun c hc =>
    sum_filter_bounds c.Weeks p f (hnn c hc)
  have h2 := sum64_wrap_le cs (fun c => ((c.Weeks.filter p).map f).sum)
    (fun c => (c.Weeks.map f).sum) hb hfit
  simp only [windowSum, sum64, List.filter_true]
  refine ⟨fun c hc => ?_, h2⟩
  obtain ⟨-, -, i3⟩ := sum_map_bounds cs (fun c => ((c.Weeks.filter p).map f).sum)
    (fun c => (c.Weeks.map f).sum) hb
  have h3 := i3 c hc
  have h4 := hb c hc
  unfold exactSum at hfit
  rw [wrap64_of_inInt64 ⟨by omega, by omega⟩, wrap64_of_inInt64 ⟨by omega, by omega⟩]
  exact h4.2

theorem windowTotals_within (cs : List Contributor) (p : Week → Bool)
    (hnn : ∀ c ∈ cs, ∀ w ∈ c.Weeks, 0 ≤ w.Commits ∧ 0 ≤ w.Additions ∧ 0 ≤ w.Deletions)
    (hfit : exactSum Week.Commits cs < 2 ^ 63 ∧ exactSum Week.Additions cs < 2 ^ 63 ∧
      exactSum Week.Deletions cs < 2 ^ 63) :
    (∀ c ∈ cs, (windowTotals p c.Weeks).within (windowTotals (fun _ => true) c.Weeks)) ∧
      (sum64 (cs.map fun c => (windowTotals p c.Weeks).Commits) ≤
          sum64 (cs.map fun c => (windowTotals (fun _ => true) c.Weeks).Commits) ∧
        sum64 (cs.map fun c => (windowTotals p c.Weeks).Additions) ≤
          sum64 (cs.map fun c => (windowTotals (fun _ => true) c.Weeks).Additions) ∧
        sum64 (cs.map fun c => (windowTotals p c.Weeks).Deletions) ≤
          sum64 (cs.map fun c => (windowTotals (fun _ => true) c.Weeks).Deletions)) := by
  have hc := windowSum_le_total cs Week.Commits p (fun c hc w hw => (hnn c hc w hw).1) hfit.1
  have ha := windowSum_le_total cs Week.Additions p (fun c hc w hw => (hnn c hc w hw).2.1)
    hfit.2.1
  have hd := windowSum_le_total cs Week.Deletions p (fun c hc w hw => (hnn c hc w hw).2.2)
    hfit.2.2
  exact ⟨fun c h => ⟨hc.1 c h, ha.1 c h, hd.1 c h⟩, hc.2, ha.2, hd.2⟩

/-- C8, amended. Let every weekly point of every answer have non-negative
commits, additions and deletions, and let, for every login, the exact sums of
the commits, of the additions and of the deletions over all weekly points of
that login in all repositories be below `2^63`. Then in the totals `getStats`
computes for each author of each repository, and in the maps after all answers
have been fetched and merged into empty maps, the commits, additions and
deletions of the last year, of the last month and of the last week are at most
the all-time commits, additions and deletions of the same author. -/
theorem windows_within_total (cut : Cutoffs) (resps : List (String × List Contributor))
    (hnn : ∀ r ∈ resps, ∀ c ∈ r.2, ∀ w ∈ c.Weeks,
      0 ≤ w.Commits ∧ 0 ≤ w.Additions ∧ 0 ≤ w.Deletions)
    (hfit : ∀ login,
      exactSum Week.Commits (contributorsOf login resps) < 2 ^ 63 ∧
      exactSum Week.Additions (contributorsOf login resps) < 2 ^ 63 ∧
      exactSum Week.Deletions (contributorsOf login resps) < 2 ^ 63) :
    (∀ r ∈ resps, ∀ s, (getStats cut r.1 (.ok r.2)).1 = some s → ∀ a ∈ s.AuthorStats,
        a.LastYear.within a.Total ∧ a.LastMonth.within a.Total ∧ a.LastWeek.within a.Total) ∧
      ∃ σ, runWorkers cut Maps.empty (resps.map fun r => (r.1, .ok r.2)) = some σ ∧
        ∀ login et ey em ew, mapGet σ.totals login = some et →
          mapGet σ.lastYear login = some ey → mapGet σ.lastMonth login = some em →
          mapGet σ.lastWeek login = some ew →
          ey.Total.within et.Total ∧ em.Total.within et.Total ∧ ew.Total.within et.Total := by
  have hnn2 : ∀ login, ∀ c ∈ contributorsOf login resps, ∀ w ∈ c.Weeks,
      0 ≤ w.Commits ∧ 0 ≤ w.Additions ∧ 0 ≤ w.Deletions := by
    intro login c hc
    obtain ⟨⟨r, hr, hcr⟩, -⟩ := mem_contributorsOf.1 hc
    exact hnn r hr c hcr
  constructor
  · intro r hr s hs a ha
    rw [getStats_ok] at hs
    simp only [Option.some.injEq] at hs
    subst hs
    simp only [fetched, List.map_map, List.mem_map, Function.comp] at ha
    obtain ⟨c, hc, rfl⟩ := ha
    have hmem : c ∈ contributorsOf c.Author.Login resps := mem_contributorsOf.2 ⟨⟨r, hr, hc⟩, rfl⟩
    rw [sumWeeks_decode]
    exact ⟨(windowTotals_within _ _ (hnn2 _) (hfit _)).1 c hmem,
      (windowTotals_within _ _ (hnn2 _) (hfit _)).1 c hmem,
      (windowTotals_within _ _ (hnn2 _) (hfit _)).1 c hmem⟩
  · rw [runWorkers_ok]
    obtain ⟨σ, h1, h2⟩ := mergeRepos_empty cut (resps.map (fetched cut))
    refine ⟨σ, h1, ?_⟩
    intro login et ey em ew het hey hem hew
    have hv := mergedRow_sums cut (withLogin login (allAuthors (resps.map (fetched cut))))
    rw [← h2 login] at hv
    obtain ⟨vt, vy, vm, vw⟩ := hv
    have st := vt et het
    have sy := vy ey hey
    have sm := vm em hem
    have sw := vw ew hew
    simp only [withLogin_fetched, List.map_map, Function.comp, sumWeeks_decode] at st sy sm sw
    have by1 := (windowTotals_within (contributorsOf login resps)
      (fun w => (timeUnix w.WeekStart).After cut.yearAgo) (hnn2 _) (hfit _)).2
    have bm1 := (windowTotals_within (contributorsOf login resps)
      (fun w => (timeUnix w.WeekStart).After cut.monthAgo) (hnn2 _) (hfit _)).2
    have bw1 := (windowTotals_within (contributorsOf login resps)
      (fun w => (timeUnix w.WeekStart).After cut.weekAgo) (hnn2 _) (hfit _)).2
    unfold Counts.within
    rw [st.1, st.2.1, st.2.2, sy.1, sy.2.1, sy.2.2, sm.1, sm.2.1, sm.2.2, sw.1, sw.2.1, sw.2.2]
    exact ⟨by1, bm1, bw1⟩

/-- C8, witness. The answers `demoAnswers`: every weekly point is non-negative
and the sums of every login are far below `2^63`. -/
theorem windows_within_total_witness :
    (∀ r ∈ demoAnswers, ∀ c ∈ r.2, ∀ w ∈ c.Weeks,
        0 ≤ w.Commits ∧ 0 ≤ w.Additions ∧ 0 ≤ w.Deletions) ∧
      ∃ σ, runWorkers demoCut Maps.empty (demoAnswers.map fun r => (r.1, .ok r.2)) = some σ ∧
        ∀ login et ey em ew, mapGet σ.totals login = some et →
          mapGet σ.lastYear login = some ey → mapGet σ.lastMonth login = some em →
          mapGet σ.lastWeek login = some ew →
          ey.Total.within et.Total ∧ em.Total.within et.Total ∧ ew.Total.within et.Total := by
  have hnn : ∀ r ∈ demoAnswers, ∀ c ∈ r.2, ∀ w ∈ c.Weeks,
      0 ≤ w.Commits ∧ 0 ≤ w.Additions ∧ 0 ≤ w.Deletions := by
    decide
  have hfit : ∀ login,
      exactSum Week.Commits (contributorsOf login demoAnswers) < 2 ^ 63 ∧
      exactSum Week.Additions (contributorsOf login demoAnswers) < 2 ^ 63 ∧
      exactSum Week.Deletions (contributorsOf login demoAnswers) < 2 ^ 63 := by
    intro login
    by_cases h1 : login = "ann"
    · subst h1; decide
    · by_cases h2 : login = "bob"
      · subst h2; decide
      · have e : contributorsOf login demoAnswers = [] := by
          simp [contributorsOf, demoAnswers, List.filter_cons, Ne.symm h1, Ne.symm h2]
        rw [e]
        decide
  exact ⟨hnn, (windows_within_total demoCut demoAnswers hnn hfit).2⟩

/-! ## The frame of a merge and the key sets -/

theorem rowStep_isSome {cut : Cutoffs} {a : authorRepoStat} {r r' : Row}
    (h : rowStep cut a r = some r') :
    r'.totals.isSome ∧ r'.lastYear.isSome ∧ r'.lastMonth.isSome ∧ r'.lastWeek.isSome := by
  obtain ⟨t, y, m, w⟩ := r
  cases t <;> cases y <;> cases m <;> cases w <;> simp [rowStep] at h <;> subst h <;>
    exact ⟨rfl, rfl, rfl, rfl⟩

theorem rowSteps_isSome {cut : Cutoffs} (as : List authorRepoStat) {r r' : Row}
    (h : rowSteps cut r as = some r') :
    (r.totals.isSome → r'.totals.isSome) ∧ (r.lastYear.isSome → r'.lastYear.isSome) ∧
      (r.lastMonth.isSome → r'.lastMonth.isSome) ∧ (r.lastWeek.isSome → r'.lastWeek.isSome) := by
  induction as generalizing r with
  | nil =>
    simp only [rowSteps, Option.some.injEq] at h
    subst h
    exact ⟨id, id, id, id⟩
  | cons a as ih =>
    rw [rowSteps] at h
    rcases h1 : rowStep cut a r with _ | r1
    · rw [h1] at h
      exact absurd h (by simp)
    · rw [h1, Option.some_bind] at h
      obtain ⟨s1, s2, s3, s4⟩ := rowStep_isSome h1
      obtain ⟨i1, i2, i3, i4⟩ := ih h
      exact ⟨fun _ => i1 s1, fun _ => i2 s2, fun _ => i3 s3, fun _ => i4 s4⟩

theorem withLogin_eq_nil {login : String} {as : List authorRepoStat}
    (h : ∀ a ∈ as, a.Author.Login ≠ login) : withLogin login as = [] := by
  rw [List.eq_nil_iff_forall_not_mem]
  intro a ha
  rw [mem_withLogin] at ha
  exact h a ha.1 ha.2

/-- C16. When the merge of one repository succeeds, no key is removed from
any of the four maps, and for every login that is not the login of an author
entry of the repository the four lookups give what they gave before: the same
entry (identity, commits, additions, deletions, `NumRepos`) or no entry. -/
theorem mergeRepo_frame (cut : Cutoffs) (σ σ' : Maps) (s : repoStat)
    (h : mergeRepo cut σ s = some σ') :
    (∀ login,
        ((mapGet σ.totals login).isSome → (mapGet σ'.totals login).isSome) ∧
        ((mapGet σ.lastYear login).isSome → (mapGet σ'.lastYear login).isSome) ∧
        ((mapGet σ.lastMonth login).isSome → (mapGet σ'.lastMonth login).isSome) ∧
        ((mapGet σ.lastWeek login).isSome → (mapGet σ'.lastWeek login).isSome)) ∧
      ∀ login, (∀ a ∈ s.AuthorStats, a.Author.Login ≠ login) →
        mapGet σ'.totals login = mapGet σ.totals login ∧
        mapGet σ'.lastYear login = mapGet σ.lastYear login ∧
        mapGet σ'.lastMonth login = mapGet σ.lastMonth login ∧
        mapGet σ'.lastWeek login = mapGet σ.lastWeek login := by
  constructor
  · intro login
    exact rowSteps_isSome _ (mergeAuthors_some_rows cut s.AuthorStats σ σ' h login)
  · intro login hl
    have hr := mergeAuthors_some_rows cut s.AuthorStats σ σ' h login
    rw [withLogin_eq_nil hl] at hr
    simp only [rowSteps, Option.some.injEq, Maps.row, Row.mk.injEq] at hr
    exact ⟨hr.1.symm, hr.2.1.symm, hr.2.2.1.symm, hr.2.2.2.symm⟩

/-- C16, witness. The merge of `emptySeriesRepo`, which lists only `bob`, into
`demoState`, which holds `ann` and `bob`. -/
theorem mergeRepo_frame_witness :
    ∃ σ', mergeRepo demoCut demoState emptySeriesRepo = some σ' ∧
      (mapGet σ'.totals "bob").isSome ∧
      mapGet σ'.totals "ann" = mapGet demoState.totals "ann" ∧
      mapGet σ'.lastWeek "ann" = mapGet demoState.lastWeek "ann" := by
  have hσ : mergeRepos demoCut Maps.empty [demoRepo] = some demoState := by decide
  obtain ⟨σ', h, -⟩ := mergeRepo_reachable hσ emptySeriesRepo
  obtain ⟨h1, h2⟩ := mergeRepo_frame demoCut demoState σ' emptySeriesRepo h
  have ha := h2 "ann" (by decide)
  exact ⟨σ', h, (h1 "bob").1 (by decide), ha.1, ha.2.2.2⟩

theorem mergedRow_login (cut : Cutoffs) (login : String) (as : List authorRepoStat)
    (has : ∀ a ∈ as, a.Author.Login = login) :
    (∀ e, (mergedRow cut as).totals = some e → e.Author.Login = login) ∧
    (∀ e, (mergedRow cut as).lastYear = some e → e.Author.Login = login) ∧
    (∀ e, (mergedRow cut as).lastMonth = some e → e.Author.Login = login) ∧
    (∀ e, (mergedRow cut as).lastWeek = some e → e.Author.Login = login) := by
  cases as with
  | nil => simp [mergedRow, Row.empty]
  | cons a as =>
    have ha := has a (List.mem_cons_self _ _)
    simp only [mergedRow, accumulateAll_new, Option.some.injEq]
    refine ⟨?_, ?_, ?_, ?_⟩ <;> (intro e he; subst he; exact ha)

/-- C17. From four empty maps the merge of any sequence of repositories
succeeds: no lookup `lastWeek[login]`, `lastMonth[login]`, `lastYear[login]` of
the merge meets a missing entry. In the state reached, a login is a key of
`lastYear`, of `lastMonth` and of `lastWeek` exactly when it is a key of
`totals`, and every entry of the four maps stores, as its `Author.Login`, the
key it is stored under. -/
theorem mergeRepos_same_keys (cut : Cutoffs) (rs : List repoStat) :
    ∃ σ, mergeRepos cut Maps.empty rs = some σ ∧
      ∀ login,
        ((mapGet σ.lastYear login).isSome = (mapGet σ.totals login).isSome) ∧
        ((mapGet σ.lastMonth login).isSome = (mapGet σ.totals login).isSome) ∧
        ((mapGet σ.lastWeek login).isSome = (mapGet σ.totals login).isSome) ∧
        (∀ e, mapGet σ.totals login = some e → e.Author.Login = login) ∧
        (∀ e, mapGet σ.lastYear login = some e → e.Author.Login = login) ∧
        (∀ e, mapGet σ.lastMonth login = some e → e.Author.Login = login) ∧
        (∀ e, mapGet σ.lastWeek login = some e → e.Author.Login = login) := by
  obtain ⟨σ, h1, h2⟩ := mergeRepos_empty cut rs
  refine ⟨σ, h1, fun login => ?_⟩
  have hk := mergedRow_isSome cut (withLogin login (allAuthors rs))
  have hl := mergedRow_login cut login (withLogin login (allAuthors rs))
    (fun a ha => (mem_withLogin.1 ha).2)
  rw [← h2 login] at hk hl
  simp only [Maps.row] at hk hl
  refine ⟨?_, ?_, ?_, hl.1, hl.2.1, hl.2.2.1, hl.2.2.2⟩
  · rw [Bool.eq_iff_iff, hk.1, hk.2.1]
  · rw [Bool.eq_iff_iff, hk.1, hk.2.2.1]
  · rw [Bool.eq_iff_iff, hk.1, hk.2.2.2]

/-! ## End-to-end scenarios -/

theorem runWorkers_single (cut : Cutoffs) (repo : String) (c : Contributor) :
    ∃ σ, runWorkers cut Maps.empty [(repo, .ok [c])] = some σ ∧
      σ.row c.Author.Login = mergedRow cut [sumWeeks cut c.decode] := by
  have h := runWorkers_ok cut [(repo, [c])] Maps.empty
  simp only [List.map_cons, List.map_nil] at h
  obtain ⟨σ, h1, h2⟩ := mergeRepos_empty cut [fetched cut (repo, [c])]
  refine ⟨σ, h.trans h1, ?_⟩
  rw [h2]
  have e := withLogin_fetched cut c.Author.Login [(repo, [c])]
  simp only [List.map_cons, List.map_nil] at e
  rw [e]
  simp [contributorsOf]

theorem mergedRow_single (cut : Cutoffs) (a : authorRepoStat) :
    mergedRow cut [a] =
      { totals := some (accumulate (newEntry a.Author) a.Total true)
        lastYear := some (accumulate (newEntry a.Author) a.LastYear (lastPointAfter cut.yearAgo a))
        lastMonth :=
          some (accumulate (newEntry a.Author) a.LastMonth (lastPointAfter cut.monthAgo a))
        lastWeek :=
          some (accumulate (newEntry a.Author) a.LastWeek (lastPointAfter cut.weekAgo a)) } :=
  rfl

theorem single_point_total (au : AuthorInfo) (w : Week) :
    (accumulate (newEntry au) (windowTotals (fun _ => true) [w]) true).Total =
      { Additions := wrap64 w.Additions, Deletions := wrap64 w.Deletions,
        Commits := wrap64 w.Commits, NumRepos := 1 } := by
  have e1 : wrap64 1 = 1 := by decide
  simp [accumulate, newEntry, Counts.zero, windowTotals, windowSum, sum64, add64, wrap64_idem,
    e1]

theorem single_point_window (cutoff : Time) (au : AuthorInfo) (w : Week) (a : authorRepoStat)
    (ha : a.Weeks = [w]) :
    (accumulate (newEntry au)
        (windowTotals (fun x => (timeUnix x.WeekStart).After cutoff) [w])
        (lastPointAfter cutoff a)).Total =
      if (timeUnix w.WeekStart).After cutoff then
        { Additions := wrap64 w.Additions, Deletions := wrap64 w.Deletions,
          Commits := wrap64 w.Commits, NumRepos := 1 }
      else Counts.zero := by
  have e1 : wrap64 1 = 1 := by decide
  have e0 : wrap64 0 = 0 := by decide
  cases h : (timeUnix w.WeekStart).After cutoff <;>
    simp [accumulate, newEntry, Counts.zero, windowTotals, windowSum, sum64, add64, wrap64_idem,
      e1, e0, lastPointAfter, ha, h]

theorem runWorkers_single_point (cut : Cutoffs) (repo : String) (au : AuthorInfo) (w : Week) :
    ∃ σ et ey em ew,
      runWorkers cut Maps.empty [(repo, .ok [{ Weeks := [w], Author := au }])] = some σ ∧
      mapGet σ.totals au.Login = some et ∧ mapGet σ.lastYear au.Login = some ey ∧
      mapGet σ.lastMonth au.Login = some em ∧ mapGet σ.lastWeek au.Login = some ew ∧
      et.Total = { Additions := wrap64 w.Additions, Deletions := wrap64 w.Deletions,
                   Commits := wrap64 w.Commits, NumRepos := 1 } ∧
      ey.Total = (if (timeUnix w.WeekStart).After cut.yearAgo then
          { Additions := wrap64 w.Additions, Deletions := wrap64 w.Deletions,
            Commits := wrap64 w.Commits, NumRepos := 1 }
        else Counts.zero) ∧
      em.Total = (if (timeUnix w.WeekStart).After cut.monthAgo then
          { Additions := wrap64 w.Additions, Deletions := wrap64 w.Deletions,
            Commits := wrap64 w.Commits, NumRepos := 1 }
        else Counts.zero) ∧
      ew.Total = (if (timeUnix w.WeekStart).After cut.weekAgo then
          { Additions := wrap64 w.Additions, Deletions := wrap64 w.Deletions,
            Commits := wrap64 w.Commits, NumRepos := 1 }
        else Counts.zero) := by
  obtain ⟨σ, h1, h2⟩ := runWorkers_single cut repo { Weeks := [w], Author := au }
  simp only [Maps.row, mergedRow_single, sumWeeks_decode, Row.mk.injEq] at h2
  obtain ⟨ht, hy, hm, hw⟩ := h2
  exact ⟨σ, _, _, _, _, h1, ht, hy, hm, hw, single_point_total au w,
    single_point_window _ au w _ rfl, single_point_window _ au w _ rfl,
    single_point_window _ au w _ rfl⟩

/-- C11. Let the clock read `now` when `weekAgo` is set and at most one second
more when `monthAgo` and `yearAgo` are set, and let the repository `lib` return
the one author `alice` with one weekly point that starts at `now - 72h` and has
5 commits, 100 additions and 20 deletions. Then the run of `getStats` and of the
merge into empty maps succeeds, and the entry of `alice` in each of the four
maps has commits 5, additions 100, deletions 20 and `NumRepos` 1. -/
theorem alice_three_days (weekStart id : Int) (avatar : String) (d2 d3 : Fin 1000000000) :
    ∃ σ,
      runWorkers
          (initCutoffs (timeUnix weekStart + 72 * hour) (timeUnix weekStart + 72 * hour + d2)
            (timeUnix weekStart + 72 * hour + d3))
          Maps.empty [("lib", .ok (aliceAnswer weekStart id avatar))] = some σ ∧
        ∀ m ∈ [σ.totals, σ.lastYear, σ.lastMonth, σ.lastWeek],
          ∃ e, mapGet m "alice" = some e ∧
            e.Total = { Additions := 100, Deletions := 20, Commits := 5, NumRepos := 1 } := by
  obtain ⟨σ, et, ey, em, ew, h1, gt, gy, gm, gw, vt, vy, vm, vw⟩ := runWorkers_single_point
    (initCutoffs (timeUnix weekStart + 72 * hour) (timeUnix weekStart + 72 * hour + d2)
      (timeUnix weekStart + 72 * hour + d3)) "lib"
    { ID := id, Login := "alice", AvatarURL := avatar }
    { WeekStart := weekStart, Additions := 100, Deletions := 20, Commits := 5 }
  refine ⟨σ, h1, ?_⟩
  have hd2 : ((d2 : Nat) : Int) < 1000000000 := by exact_mod_cast d2.isLt
  have hd3 : ((d3 : Nat) : Int) < 1000000000 := by exact_mod_cast d3.isLt
  have hw : (timeUnix weekStart).After
      (initCutoffs (timeUnix weekStart + 72 * hour) (timeUnix weekStart + 72 * hour + d2)
        (timeUnix weekStart + 72 * hour + d3)).weekAgo = true := by
    simp only [initCutoffs, Time.After, hour, timeUnix, decide_eq_true_eq]; linarith
  have hm : (timeUnix weekStart).After
      (initCutoffs (timeUnix weekStart + 72 * hour) (timeUnix weekStart + 72 * hour + d2)
        (timeUnix weekStart + 72 * hour + d3)).monthAgo = true := by
    simp only [initCutoffs, Time.After, hour, timeUnix, decide_eq_true_eq]; linarith
  have hy : (timeUnix weekStart).After
      (initCutoffs (timeUnix weekStart + 72 * hour) (timeUnix weekStart + 72 * hour + d2)
        (timeUnix weekStart + 72 * hour + d3)).yearAgo = true := by
    simp only [initCutoffs, Time.After, hour, timeUnix, decide_eq_true_eq]; linarith
  have e5 : wrap64 5 = 5 := by decide
  have e100 : wrap64 100 = 100 := by decide
  have e20 : wrap64 20 = 20 := by decide
  rw [if_pos hy] at vy
  rw [if_pos hm] at vm
  rw [if_pos hw] at vw
  simp only [e5, e100, e20] at vt vy vm vw
  intro m hmem
  simp only [List.mem_cons, List.mem_singleton, List.not_mem_nil, or_false] at hmem
  rcases hmem with rfl | rfl | rfl | rfl
  · exact ⟨et, gt, vt⟩
  · exact ⟨ey, gy, vy⟩
  · exact ⟨em, gm, vm⟩
  · exact ⟨ew, gw, vw⟩

/-- C12. Let the clock read `now` when `weekAgo` is set and at most one second
more when `monthAgo` and `yearAgo` are set, and let a repository return one
author whose only weekly point starts at `now - 17520h` (two years) and has
`int64` commits, additions and deletions. Then the run of `getStats` and of the
merge into empty maps succeeds; the all-time entry of the author holds the
commits, additions and deletions of the point and `NumRepos` 1; the last-year,
last-month and last-week entries hold commits, additions, deletions and
`NumRepos` all equal to zero. -/
theorem old_point_all_time_only (repo : String) (au : AuthorInfo) (w : Week)
    (d2 d3 : Fin 1000000000)
    (hw : inInt64 w.Commits ∧ inInt64 w.Additions ∧ inInt64 w.Deletions) :
    ∃ σ et ey em ew,
      runWorkers
          (initCutoffs (timeUnix w.WeekStart + 17520 * hour)
            (timeUnix w.WeekStart + 17520 * hour + d2) (timeUnix w.WeekStart + 17520 * hour + d3))
          Maps.empty [(repo, .ok [{ Weeks := [w], Author := au }])] = some σ ∧
        mapGet σ.totals au.Login = some et ∧ mapGet σ.lastYear au.Login = some ey ∧
        mapGet σ.lastMonth au.Login = some em ∧ mapGet σ.lastWeek au.Login = some ew ∧
        et.Total = { Additions := w.Additions, Deletions := w.Deletions, Commits := w.Commits,
                     NumRepos := 1 } ∧
        ey.Total = { Additions := 0, Deletions := 0, Commits := 0, NumRepos := 0 } ∧
        em.Total = { Additions := 0, Deletions := 0, Commits := 0, NumRepos := 0 } ∧
        ew.Total = { Additions := 0, Deletions := 0, Commits := 0, NumRepos := 0 } := by
  obtain ⟨σ, et, ey, em, ew, h1, gt, gy, gm, gw, vt, vy, vm, vw⟩ := runWorkers_single_point
    (initCutoffs (timeUnix w.WeekStart + 17520 * hour)
      (timeUnix w.WeekStart + 17520 * hour + d2) (timeUnix w.WeekStart + 17520 * hour + d3))
    repo au w
  have hd2 : (0 : Int) ≤ (d2 : Nat) := Int.natCast_nonneg _
  have hd3 : (0 : Int) ≤ (d3 : Nat) := Int.natCast_nonneg _
  have fw : ¬ (timeUnix w.WeekStart).After
      (initCutoffs (timeUnix w.WeekStart + 17520 * hour)
        (timeUnix w.WeekStart + 17520 * hour + d2)
        (timeUnix w.WeekStart + 17520 * hour + d3)).weekAgo = true := by
    simp only [initCutoffs, Time.After, hour, timeUnix, decide_eq_true_eq, not_lt]; linarith
  have fm : ¬ (timeUnix w.WeekStart).After
      (initCutoffs (timeUnix w.WeekStart + 17520 * hour)
        (timeUnix w.WeekStart + 17520 * hour + d2)
        (timeUnix w.WeekStart + 17520 * hour + d3)).monthAgo = true := by
    simp only [initCutoffs, Time.After, hour, timeUnix, decide_eq_true_eq, not_lt]; linarith
  have fy : ¬ (timeUnix w.WeekStart).After
      (initCutoffs (timeUnix w.WeekStart + 17520 * hour)
        (timeUnix w.WeekStart + 17520 * hour + d2)
        (timeUnix w.WeekStart + 17520 * hour + d3)).yearAgo = true := by
    simp only [initCutoffs, Time.After, hour, timeUnix, decide_eq_true_eq, not_lt]; linarith
  rw [if_neg fy] at vy
  rw [if_neg fm] at vm
  rw [if_neg fw] at vw
  rw [wrap64_of_inInt64 hw.1, wrap64_of_inInt64 hw.2.1, wrap64_of_inInt64 hw.2.2] at vt
  exact ⟨σ, et, ey, em, ew, h1, gt, gy, gm, gw, vt, vy, vm, vw⟩

/-- C12, witness. The author `bob` with one point of 1 commit, 3 additions and
3 deletions that is two years old. -/
theorem old_point_all_time_only_witness :
    (inInt64 1 ∧ inInt64 3 ∧ inInt64 3) ∧
      ∃ σ et ey,
        runWorkers demoCut Maps.empty
            [("lib", .ok [{ Weeks := [{ WeekStart := 1636928000, Additions := 3, Deletions := 3,
                                        Commits := 1 }]
                            Author := { ID := 2, Login := "bob", AvatarURL := "" } }])] =
          some σ ∧
        mapGet σ.totals "bob" = some et ∧ mapGet σ.lastYear "bob" = some ey ∧
        et.Total = { Additions := 3, Deletions := 3, Commits := 1, NumRepos := 1 } ∧
        ey.Total = { Additions := 0, Deletions := 0, Commits := 0, NumRepos := 0 } := by
  have hr : inInt64 1 ∧ inInt64 3 ∧ inInt64 3 := by
    simp only [inInt64]; norm_num
  obtain ⟨σ, et, ey, em, ew, h1, gt, gy, -, -, vt, vy, -, -⟩ := old_point_all_time_only "lib"
    { ID := 2, Login := "bob", AvatarURL := "" }
    { WeekStart := 1636928000, Additions := 3, Deletions := 3, Commits := 1 } 0 0 hr
  exact ⟨hr, σ, et, ey, h1, gt, gy, vt, vy⟩

/-! ## Nested windows -/

theorem sum_filter_mono (ws : List Week) (p q : Week → Bool) (f : Week → Int)
    (h : ∀ w ∈ ws, 0 ≤ f w) (hpq : ∀ w, p w = true → q w = true) :
    ((ws.filter p).map f).sum ≤ ((ws.filter q).map f).sum := by
  induction ws with
  | nil => simp
  | cons w ws ih =>
    have hw := h w (List.mem_cons_self _ _)
    have i1 := ih fun x hx => h x (List.mem_cons_of_mem _ hx)
    cases hp : p w
    · cases hq : q w
      · simpa [List.filter_cons, hp, hq] using i1
      · simp only [List.filter_cons, hp, hq, if_true, List.map_cons, List.sum_cons]
        simp only [Bool.false_eq_true, if_false]
        omega
    · have hq := hpq w hp
      simp only [List.filter_cons, hp, hq, if_true, List.map_cons, List.sum_cons]
      omega

theorem windowSum_mono (ws : List Week) (p q : Week → Bool) (f : Week → Int)
    (h : ∀ w ∈ ws, 0 ≤ f w) (hfit : (ws.map f).sum < 2 ^ 63)
    (hpq : ∀ w, p w = true → q w = true) : windowSum p f ws ≤ windowSum q f ws := by
  have b1 := sum_filter_bounds ws p f h
  have b2 := sum_filter_bounds ws q f h
  have b3 := sum_filter_mono ws p q f h hpq
  unfold windowSum sum64
  rw [wrap64_of_inInt64 ⟨by omega, by omega⟩, wrap64_of_inInt64 ⟨by omega, by omega⟩]
  exact b3

theorem windowTotals_mono (ws : List Week) (p q : Week → Bool)
    (h : ∀ w ∈ ws, 0 ≤ w.Commits ∧ 0 ≤ w.Additions ∧ 0 ≤ w.Deletions)
    (hfit : (ws.map Week.Commits).sum < 2 ^ 63 ∧ (ws.map Week.Additions).sum < 2 ^ 63 ∧
      (ws.map Week.Deletions).sum < 2 ^ 63)
    (hpq : ∀ w, p w = true → q w = true) :
    (windowTotals p ws).within (windowTotals q ws) :=
  ⟨windowSum_mono ws p q _ (fun w hw => (h w hw).1) hfit.1 hpq,
    windowSum_mono ws p q _ (fun w hw => (h w hw).2.1) hfit.2.1 hpq,
    windowSum_mono ws p q _ (fun w hw => (h w hw).2.2) hfit.2.2 hpq⟩

theorem after_mono {t u v : Time} (huv : u ≤ v) (h : t.After v = true) : t.After u = true := by
  simp only [Time.After, decide_eq_true_eq] at h ⊢
  exact lt_of_le_of_lt huv h

theorem lastPointAfter_mono {u v : Time} (huv : u ≤ v) {a : authorRepoStat}
    (h : lastPointAfter v a = true) : lastPointAfter u a = true := by
  unfold lastPointAfter at h ⊢
  cases hl : a.Weeks.getLast? with
  | none => simp [hl] at h
  | some w =>
    simp only [hl] at h ⊢
    exact after_mono huv h

/-- C18. Let the cutoffs satisfy `yearAgo ≤ monthAgo ≤ weekAgo`, let every
weekly point of every answer have non-negative commits, additions and
deletions, and let no `int64` overflow: the exact sums of the commits, of the
additions and of the deletions of every series are below `2^63`, and so is the
number of author entries of every login. Then for every author series
`getStats` yields `LastWeek ≤ LastMonth ≤ LastYear ≤ Total` for commits,
additions and deletions, and after the answers have been fetched and merged
into empty maps the `NumRepos` of every login satisfy last-week ≤ last-month ≤
last-year ≤ all-time. -/
theorem windows_nested (cut : Cutoffs) (resps : List (String × List Contributor))
    (hcut : cut.yearAgo ≤ cut.monthAgo ∧ cut.monthAgo ≤ cut.weekAgo)
    (hnn : ∀ r ∈ resps, ∀ c ∈ r.2, ∀ w ∈ c.Weeks,
      0 ≤ w.Commits ∧ 0 ≤ w.Additions ∧ 0 ≤ w.Deletions)
    (hfit : ∀ r ∈ resps, ∀ c ∈ r.2,
      (c.Weeks.map Week.Commits).sum < 2 ^ 63 ∧ (c.Weeks.map Week.Additions).sum < 2 ^ 63 ∧
      (c.Weeks.map Week.Deletions).sum < 2 ^ 63)
    (hcount : ∀ login, ((contributorsOf login resps).length : Int) < 2 ^ 63) :
    (∀ r ∈ resps, ∀ s, (getStats cut r.1 (.ok r.2)).1 = some s → ∀ a ∈ s.AuthorStats,
        a.LastWeek.within a.LastMonth ∧ a.LastMonth.within a.LastYear ∧
        a.LastYear.within a.Total) ∧
      ∃ σ, runWorkers cut Maps.empty (resps.map fun r => (r.1, .ok r.2)) = some σ ∧
        ∀ login,
          repoCount σ.lastWeek login ≤ repoCount σ.lastMonth login ∧
          repoCount σ.lastMonth login ≤ repoCount σ.lastYear login ∧
          repoCount σ.lastYear login ≤ repoCount σ.totals login := by
  constructor
  · intro r hr s hs a ha
    rw [getStats_ok] at hs
    simp only [Option.some.injEq] at hs
    subst hs
    simp only [fetched, List.map_map, List.mem_map, Function.comp] at ha
    obtain ⟨c, hc, rfl⟩ := ha
    rw [sumWeeks_decode]
    exact ⟨windowTotals_mono c.Weeks _ _ (hnn r hr c hc) (hfit r hr c hc)
        (fun w h => after_mono hcut.2 h),
      windowTotals_mono c.Weeks _ _ (hnn r hr c hc) (hfit r hr c hc)
        (fun w h => after_mono hcut.1 h),
      windowTotals_mono c.Weeks _ _ (hnn r hr c hc) (hfit r hr c hc) (fun _ _ => rfl)⟩
  · rw [runWorkers_ok]
    obtain ⟨σ, h1, -⟩ := mergeRepos_empty cut (resps.map (fetched cut))
    refine ⟨σ, h1, fun login => ?_⟩
    obtain ⟨ct, cy, cm, cw⟩ := repoCount_reachable h1 login
    have hlen : ((withLogin login (allAuthors (resps.map (fetched cut)))).length : Int) <
        2 ^ 63 := by
      rw [withLogin_fetched, List.length_map]
      exact hcount login
    have l1 := List.countP_le_length (lastPointAfter cut.yearAgo)
      (l := withLogin login (allAuthors (resps.map (fetched cut))))
    have l2 := List.countP_mono_left (l := withLogin login (allAuthors (resps.map (fetched cut))))
      (p := lastPointAfter cut.monthAgo) (q := lastPointAfter cut.yearAgo)
      (fun a _ h => lastPointAfter_mono hcut.1 h)
    have l3 := List.countP_mono_left (l := withLogin login (allAuthors (resps.map (fetched cut))))
      (p := lastPointAfter cut.weekAgo) (q := lastPointAfter cut.monthAgo)
      (fun a _ h => lastPointAfter_mono hcut.2 h)
    rw [ct, cy, cm, cw, wrap64_of_inInt64 ⟨by omega, by omega⟩,
      wrap64_of_inInt64 ⟨by omega, by omega⟩, wrap64_of_inInt64 ⟨by omega, by omega⟩,
      wrap64_of_inInt64 ⟨by omega, by omega⟩]
    omega

/-- C18, witness. The answers `demoAnswers` with the cutoffs of `demoCut`. -/
theorem windows_nested_witness :
    (demoCut.yearAgo ≤ demoCut.monthAgo ∧ demoCut.monthAgo ≤ demoCut.weekAgo) ∧
      (∀ r ∈ demoAnswers, ∀ s, (getStats demoCut r.1 (.ok r.2)).1 = some s →
        ∀ a ∈ s.AuthorStats,
          a.LastWeek.within a.LastMonth ∧ a.LastMonth.within a.LastYear ∧
          a.LastYear.within a.Total) ∧
      ∃ σ, runWorkers demoCut Maps.empty (demoAnswers.map fun r => (r.1, .ok r.2)) = some σ ∧
        ∀ login,
          repoCount σ.lastWeek login ≤ repoCount σ.lastMonth login ∧
          repoCount σ.lastMonth login ≤ repoCount σ.lastYear login ∧
          repoCount σ.lastYear login ≤ repoCount σ.totals login := by
  have hcut : demoCut.yearAgo ≤ demoCut.monthAgo ∧ demoCut.monthAgo ≤ demoCut.weekAgo := by
    decide
  have hcount : ∀ login, ((contributorsOf login demoAnswers).length : Int) < 2 ^ 63 := by
    intro login
    by_cases h1 : login = "ann"
    · subst h1; decide
    · by_cases h2 : login = "bob"
      · subst h2; decide
      · have e : contributorsOf login demoAnswers = [] := by
          simp [contributorsOf, demoAnswers, List.filter_cons, Ne.symm h1, Ne.symm h2]
        rw [e]
        decide
  exact ⟨hcut, windows_nested demoCut demoAnswers hcut (by decide) (by decide) hcount⟩

/-! ## The concurrency limiter -/

theorem Limiter.inv_init (n : Nat) : (Limiter.init n).inv := by
  unfold Limiter.inv Limiter.init
  by_cases h : 0 < n <;> simp [h]

theorem Limiter.inv_step {s s' : Limiter} {e : Event} (hi : s.inv) (h : step s e = some s') :
    s'.inv := by
  obtain ⟨repos, i, tokens, inflight, place⟩ := s
  unfold Limiter.inv at hi ⊢
  cases e with
  | main =>
    cases place <;> simp only [step] at h
    · split at h
      · simp only [Option.some.injEq] at h; subst h; simp at hi ⊢; omega
      · exact absurd h (by simp)
    · split at h
      · simp only [Option.some.injEq] at h; subst h; exact hi
      · simp only [Option.some.injEq] at h; subst h; simp at hi ⊢; omega
    · simp only [Option.some.injEq] at h
      subst h
      simp at hi ⊢
      split <;> simp <;> omega
    · split at h
      · simp only [Option.some.injEq] at h; subst h; simp at hi ⊢; omega
      · simp only [Option.some.injEq] at h; subst h; simp at hi ⊢; omega
    · split at h
      · simp at hi; omega
      · exact absurd h (by simp)
    · exact absurd h (by simp)
  | finish =>
    simp only [step] at h
    split at h
    · simp only [Option.some.injEq] at h
      subst h
      cases place <;> simp at hi ⊢ <;> omega
    · exact absurd h (by simp)

theorem Limiter.inv_run {s s' : Limiter} (es : List Event) (hi : s.inv)
    (h : run s es = some s') : s'.inv := by
  induction es generalizing s with
  | nil =>
    simp only [run, Option.some.injEq] at h
    subst h
    exact hi
  | cons e es ih =>
    rw [run] at h
    rcases h1 : step s e with _ | s1
    · rw [h1] at h
      exact absurd h (by simp)
    · rw [h1, Option.some_bind] at h
      exact ih (Limiter.inv_step hi h1) h

/-- C14. For every number of repositories and every schedule of the steps of
`main` and of the workers, the number of workers that were started and have not
finished is at most 8 in the state reached (it is at most 7: a worker is
started only when the channel, its own token included, holds fewer than 8). -/
theorem inflight_le_eight (n : Nat) (es : List Event) (s : Limiter)
    (h : run (Limiter.init n) es = some s) : s.inflight ≤ 8 ∧ s.inflight ≤ 7 := by
  have hi := Limiter.inv_run es (Limiter.inv_init n) h
  exact ⟨le_trans hi.2.1 (by decide), hi.2.1⟩

/-- C14, witness. With 10 repositories and no worker finishing, `main` starts
7 workers and then waits at the test `len(ch) >= 8` with 8 tokens in `ch`. -/
theorem inflight_le_eight_witness :
    run (Limiter.init 10) busySchedule =
        some { repos := 10, i := 7, tokens := 8, inflight := 7, place := .gate } ∧
      7 ≤ 8 ∧ 7 ≤ 7 :=
  ⟨by decide,
    inflight_le_eight 10 busySchedule
      { repos := 10, i := 7, tokens := 8, inflight := 7, place := .gate } (by decide)⟩

/-- C13. In every state that a schedule reaches with `main` at the test of the
final loop `for len(ch) == 0 { <-ch }`: when workers are still in flight the
loop is left at once, with these workers in flight; when no worker is in
flight `main` goes on to the receive `<-ch`, where neither `main` nor a worker
can take a step any more. So `main` gets past the final loop only while
workers are in flight. -/
theorem final_loop_exits_with_workers (n : Nat) (es : List Event) (s : Limiter)
    (h : run (Limiter.init n) es = some s) (hw : s.place = .wait) :
    (0 < s.inflight → step s .main = some { s with place := .done }) ∧
      (s.inflight = 0 →
        step s .main = some { s with place := .recv } ∧
        step { s with place := .recv } .main = none ∧
        step { s with place := .recv } .finish = none) := by
  have hi := Limiter.inv_run es (Limiter.inv_init n) h
  obtain ⟨repos, i, tokens, inflight, place⟩ := s
  simp only at hw
  subst hw
  simp [Limiter.inv] at hi
  obtain ⟨ht, -⟩ := hi
  subst ht
  constructor
  · intro hpos
    simp only at hpos
    have h0 : ¬ tokens = 0 := by omega
    simp [step, h0]
  · intro h0
    simp only at h0
    subst h0
    simp [step]

/-- C13, witness. One repository: `main` sends the token, passes the test
`len(ch) >= 8`, starts the worker and, at the final loop, finds `len(ch) = 1`; it
leaves the loop while the worker is in flight. -/
theorem final_loop_exits_with_workers_witness :
    run (Limiter.init 1) [.main, .main, .main] =
        some { repos := 1, i := 1, tokens := 1, inflight := 1, place := .wait } ∧
      step { repos := 1, i := 1, tokens := 1, inflight := 1, place := .wait } .main =
        some { repos := 1, i := 1, tokens := 1, inflight := 1, place := .done } :=
  ⟨by decide,
    (final_loop_exits_with_workers 1 [.main, .main, .main]
      { repos := 1, i := 1, tokens := 1, inflight := 1, place := .wait } (by decide) rfl).1
      (by decide)⟩

/-! ## comma -/


theorem toDigitsCore_acc (fuel n : Nat) (ds : List Char) :
    Nat.toDigitsCore 10 fuel n ds = Nat.toDigitsCore 10 fuel n [] ++ ds := by
  induction fuel generalizing n ds with
  | zero => simp [Nat.toDigitsCore]
  | succ f ih =>
    simp only [Nat.toDigitsCore]
    split
    · simp
    · rw [ih, ih (n / 10) [Nat.digitChar (n % 10)]]
      simp

theorem toDigitsCore_succ_fuel (f n : Nat) (ds : List Char) (h : n < f) :
    Nat.toDigitsCore 10 (f + 1) n ds = Nat.toDigitsCore 10 f n ds := by
  induction f generalizing n ds with
  | zero => omega
  | succ f ih =>
    rw [Nat.toDigitsCore]
    conv_rhs => rw [Nat.toDigitsCore]
    by_cases h0 : n / 10 = 0
    · simp only [h0, if_true]
    · simp only [h0, if_false]
      exact ih _ _ (by omega)

theorem toDigitsCore_add_fuel (k f n : Nat) (ds : List Char) (h : n < f) :
    Nat.toDigitsCore 10 (f + k) n ds = Nat.toDigitsCore 10 f n ds := by
  induction k with
  | zero => rfl
  | succ k ih => rw [← Nat.add_assoc, toDigitsCore_succ_fuel _ _ _ (by omega), ih]

theorem toDigits_lt_ten (n : Nat) (h : n < 10) : Nat.toDigits 10 n = [Nat.digitChar n] := by
  have h0 : n / 10 = 0 := by omega
  have h1 : n % 10 = n := by omega
  simp [Nat.toDigits, Nat.toDigitsCore, h0, h1]

theorem toDigits_step (n : Nat) (h : 10 ≤ n) :
    Nat.toDigits 10 n = Nat.toDigits 10 (n / 10) ++ [Nat.digitChar (n % 10)] := by
  have h0 : ¬ n / 10 = 0 := by omega
  unfold Nat.toDigits
  rw [Nat.toDigitsCore]
  simp only [h0, if_false]
  rw [toDigitsCore_acc]
  congr 1
  have h1 := toDigitsCore_add_fuel (n - (n / 10 + 1)) (n / 10 + 1) (n / 10) [] (by omega)
  rw [show n / 10 + 1 + (n - (n / 10 + 1)) = n by omega] at h1
  exact h1

theorem digitChar_isDigit (d : Nat) (h : d < 10) : (Nat.digitChar d).isDigit = true := by
  interval_cases d <;> rfl

theorem toDigits_thousand (n : Nat) (h : 1000 ≤ n) :
    Nat.toDigits 10 n = Nat.toDigits 10 (n / 1000) ++
      [Nat.digitChar (n % 1000 / 100), Nat.digitChar (n % 1000 / 10 % 10),
        Nat.digitChar (n % 1000 % 10)] := by
  rw [toDigits_step n (by omega), toDigits_step (n / 10) (by omega),
    toDigits_step (n / 10 / 10) (by omega)]
  have e1 : n / 10 / 10 / 10 = n / 1000 := by omega
  have e2 : n / 10 / 10 % 10 = n % 1000 / 100 := by omega
  have e3 : n / 10 % 10 = n % 1000 / 10 % 10 := by omega
  have e4 : n % 10 = n % 1000 % 10 := by omega
  rw [e1, e2, e3, e4]
  simp

theorem toDigits_small (r : Nat) (h : r < 1000) :
    Nat.toDigits 10 r =
      if r < 10 then [Nat.digitChar r]
      else if r < 100 then [Nat.digitChar (r / 10), Nat.digitChar (r % 10)]
      else [Nat.digitChar (r / 100), Nat.digitChar (r / 10 % 10), Nat.digitChar (r % 10)] := by
  by_cases h1 : r < 10
  · simp only [h1, if_true]
    exact toDigits_lt_ten r h1
  · by_cases h2 : r < 100
    · simp only [h1, h2, if_true, if_false]
      rw [toDigits_step r (by omega), toDigits_lt_ten (r / 10) (by omega)]
      rfl
    · simp only [h1, h2, if_false]
      rw [toDigits_step r (by omega), toDigits_step (r / 10) (by omega),
        toDigits_lt_ten (r / 10 / 10) (by omega)]
      have e1 : r / 10 / 10 = r / 100 := by omega
      rw [e1]
      rfl

theorem formatInt_natCast (n : Nat) : formatInt (n : Int) = Nat.repr n := rfl

theorem repr_data (n : Nat) : (Nat.repr n).data = Nat.toDigits 10 n := rfl

theorem padGroup_data (r : Nat) (h : r < 1000) :
    (padGroup (formatInt (r : Int))).data =
      [Nat.digitChar (r / 100), Nat.digitChar (r / 10 % 10), Nat.digitChar (r % 10)] := by
  have hl : (formatInt (r : Int)).length = (Nat.toDigits 10 r).length := rfl
  have hd : (formatInt (r : Int)).data = Nat.toDigits 10 r := rfl
  unfold padGroup
  rw [hl, toDigits_small r h]
  by_cases h1 : r < 10
  · have a1 : r / 100 = 0 := by omega
    have a2 : r / 10 % 10 = 0 := by omega
    have a3 : r % 10 = r := by omega
    simp [h1, String.data_append, hd, toDigits_small r h, a1, a2, a3]
    rfl
  · by_cases h2 : r < 100
    · have a1 : r / 100 = 0 := by omega
      have a2 : r / 10 % 10 = r / 10 := by omega
      simp [h1, h2, String.data_append, hd, toDigits_small r h, a1, a2]
      rfl
    · simp [h1, h2, hd, toDigits_small r h]
theorem drop_set_self {α : Type} (l : List α) (i : Nat) (a : α) (h : i < l.length) :
    (l.set i a).drop i = a :: l.drop (i + 1) := by
  induction l generalizing i with
  | nil => simp at h
  | cons x xs ih =>
    cases i with
    | zero => simp
    | succ i =>
      simp only [List.length_cons] at h
      simp only [List.set_cons_succ, List.drop_succ_cons]
      exact ih i (by omega)

theorem digitGroups_small (n : Nat) (h : n < 1000) : digitGroups n (Nat.repr n) [] := by
  have hd : (Nat.repr n).data = Nat.toDigits 10 n := rfl
  have hl : (Nat.repr n).length = (Nat.toDigits 10 n).length := rfl
  refine ⟨?_, ?_, ?_, ?_, ?_⟩
  · rw [hl, toDigits_small n h]; split_ifs <;> simp
  · rw [hl, toDigits_small n h]; split_ifs <;> simp
  · intro g hg; simp at hg
  · intro g hg c hc
    simp only [List.mem_singleton] at hg
    subst hg
    rw [hd, toDigits_small n h] at hc
    split_ifs at hc <;> simp only [List.mem_cons, List.mem_singleton, List.not_mem_nil, or_false] at hc
    · subst hc; exact digitChar_isDigit _ (by omega)
    · rcases hc with rfl | rfl <;> exact digitChar_isDigit _ (by omega)
    · rcases hc with rfl | rfl | rfl <;> exact digitChar_isDigit _ (by omega)
  · simp [concatData, hd]

theorem concatData_append (as bs : List String) :
    concatData (as ++ bs) = concatData as ++ concatData bs := by
  induction as with
  | nil => rfl
  | cons a as ih => simp [concatData, ih]

theorem digitGroups_step (n : Nat) (h : 1000 ≤ n) (g0 : String) (gs : List String)
    (hg : digitGroups (n / 1000) g0 gs) :
    digitGroups n g0 (gs ++ [padGroup (formatInt ((n % 1000 : Nat) : Int))]) := by
  obtain ⟨h1, h2, h3, h4, h5⟩ := hg
  have hp := padGroup_data (n % 1000) (by omega)
  refine ⟨h1, h2, ?_, ?_, ?_⟩
  · intro g hg
    rcases List.mem_append.1 hg with hg | hg
    · exact h3 g hg
    · simp only [List.mem_singleton] at hg
      subst hg
      show (padGroup _).data.length = 3
      rw [hp]; rfl
  · intro g hg c hc
    rw [← List.cons_append] at hg
    rcases List.mem_append.1 hg with hg | hg
    · exact h4 g hg c hc
    · simp only [List.mem_singleton] at hg
      subst hg
      rw [hp] at hc
      simp only [List.mem_cons, List.mem_singleton, List.not_mem_nil, or_false] at hc
      rcases hc with rfl | rfl | rfl <;> exact digitChar_isDigit _ (by omega)
  · rw [← List.cons_append, concatData_append, h5, toDigits_thousand n h]
    simp only [concatData, hp, List.append_nil]

theorem commaLoop_spec (fuel : Nat) : ∀ (n k : Nat) (j : Int) (parts : List String),
    n ≤ fuel → parts.length = 7 → n < 1000 ^ (k + 1) → (k : Int) ≤ j → j ≤ 6 →
    ∃ v' j' parts' parts'' g0 gs,
      commaLoop fuel (n : Int) j parts = some (v', j', parts') ∧ 0 ≤ j' ∧ j' ≤ j ∧
      setPart parts' j' (formatInt v') = some parts'' ∧ parts''.length = 7 ∧
      parts''.drop j'.toNat = (g0 :: gs) ++ parts.drop (j.toNat + 1) ∧
      digitGroups n g0 gs := by
  induction fuel with
  | zero =>
    intro n k j parts hn hp hk hkj hj
    have hn0 : n = 0 := by omega
    subst hn0
    have hj0 : 0 ≤ j := le_trans (Int.natCast_nonneg k) hkj
    have hjl : j.toNat < parts.length := by omega
    refine ⟨0, j, parts, parts.set j.toNat (Nat.repr 0), Nat.repr 0, [], by simp [commaLoop],
      hj0, le_refl _, ?_, by simp [hp], ?_, digitGroups_small 0 (by omega)⟩
    · have : 0 ≤ j ∧ j < (parts.length : Int) := ⟨hj0, by omega⟩
      simp only [setPart, this, and_self, if_true]
      rfl
    · rw [drop_set_self _ _ _ hjl]
      rfl
  | succ f ih =>
    intro n k j parts hn hp hk hkj hj
    have hj0 : 0 ≤ j := le_trans (Int.natCast_nonneg k) hkj
    have hjl : j.toNat < parts.length := by omega
    have hset : ∀ s, setPart parts j s = some (parts.set j.toNat s) := by
      intro s
      have : 0 ≤ j ∧ j < (parts.length : Int) := ⟨hj0, by omega⟩
      simp only [setPart, this, and_self, if_true]
    by_cases hsmall : n ≤ 999
    · have hv : ¬ ((n : Int) > 999) := by omega
      refine ⟨n, j, parts, parts.set j.toNat (Nat.repr n), Nat.repr n, [],
        by simp only [commaLoop, hv, if_false], hj0, le_refl _, hset _, by simp [hp], ?_,
        digitGroups_small n (by omega)⟩
      rw [drop_set_self _ _ _ hjl]
      rfl
    · have hv : (n : Int) > 999 := by omega
      have hk1 : 1 ≤ k := by
        by_contra hc
        have : k = 0 := by omega
        subst this
        simp at hk
        omega
      have hm : (n : Int).tmod 1000 = ((n % 1000 : Nat) : Int) := by
        rw [Int.tmod_eq_emod (by omega) (by omega)]; norm_cast
      have hd : (n : Int).tdiv 1000 = ((n / 1000 : Nat) : Int) := by
        rw [Int.tdiv_eq_ediv (by omega) (by omega)]; norm_cast
      have hlt : n / 1000 < 1000 ^ (k - 1 + 1) := by
        rw [Nat.sub_add_cancel hk1]
        apply Nat.div_lt_of_lt_mul
        rw [pow_succ] at hk
        rw [Nat.mul_comm]
        exact hk
      obtain ⟨v', j', parts', parts'', g0, gs, e1, e2, e3, e4, e5, e6, e7⟩ :=
        ih (n / 1000) (k - 1) (j - 1) (parts.set j.toNat (padGroup (formatInt (n % 1000 : Nat))))
          (by omega) (by simp [hp]) hlt (by omega) (by omega)
      refine ⟨v', j', parts', parts'', g0,
        gs ++ [padGroup (formatInt ((n % 1000 : Nat) : Int))], ?_, e2, by omega, e4, e5, ?_,
        digitGroups_step n (by omega) g0 gs e7⟩
      · simp only [commaLoop, hv, if_true, hm, hd, hset, Option.some_bind]
        exact e1
      · rw [e6]
        have hj1 : (j - 1).toNat + 1 = j.toNat := by omega
        rw [hj1, drop_set_self _ _ _ hjl]
        simp
theorem isDigit_ne_comma {c : Char} (h : c.isDigit = true) : (c != ',') = true := by
  have hne : c ≠ ',' := by
    rintro rfl
    exact absurd h (by decide)
  simpa using hne

theorem filter_digits (l : List Char) (h : ∀ c ∈ l, c.isDigit = true) :
    l.filter (fun c => c != ',') = l :=
  List.filter_eq_self.2 fun c hc => isDigit_ne_comma (h c hc)

theorem stringsJoin_filter (gs : List String) :
    ∀ g0 : String, (∀ g ∈ g0 :: gs, ∀ c ∈ g.data, c.isDigit = true) →
      (stringsJoin (g0 :: gs) ",").data.filter (fun c => c != ',') = concatData (g0 :: gs) := by
  induction gs with
  | nil =>
    intro g0 h
    simp only [stringsJoin, concatData, List.append_nil]
    exact filter_digits _ (h g0 (List.mem_singleton.2 rfl))
  | cons g gs ih =>
    intro g0 h
    have h0 := h g0 (List.mem_cons_self _ _)
    have hrest := ih g fun x hx => h x (List.mem_cons_of_mem _ hx)
    rw [stringsJoin, String.data_append, String.data_append, List.filter_append,
      List.filter_append, hrest, filter_digits _ h0]
    show g0.data ++ [] ++ concatData (g :: gs) = concatData (g0 :: g :: gs)
    simp [concatData]

theorem neg_in_range {v : Int} (hv : inInt64 v) (hmin : v ≠ -9223372036854775808)
    (hneg : v < 0) : wrap64 (0 - v) = -v := by
  unfold inInt64 at hv
  unfold wrap64
  omega

theorem comma_digitGroups (v : Int) (hv : inInt64 v) (hmin : v ≠ -9223372036854775808) :
    ∃ g0 gs, comma v = some ((if v < 0 then "-" else "") ++ stringsJoin (g0 :: gs) ",") ∧
      digitGroups v.natAbs g0 gs := by
  have hv' : (if v < 0 then wrap64 (0 - v) else v) = (v.natAbs : Int) := by
    by_cases hneg : v < 0
    · rw [if_pos hneg, neg_in_range hv hmin hneg]; omega
    · rw [if_neg hneg]; omega
  have hn : v.natAbs < 1000 ^ (6 + 1) := by
    unfold inInt64 at hv
    have : v.natAbs < 2 ^ 63 := by omega
    exact lt_trans this (by norm_num)
  obtain ⟨v', j', parts', parts'', g0, gs, e1, e2, e3, e4, e5, e6, e7⟩ :=
    commaLoop_spec v.natAbs v.natAbs 6 6 ["", "", "", "", "", "", ""] (le_refl _) rfl hn
      (le_refl _) (le_refl _)
  refine ⟨g0, gs, ?_, e7⟩
  have hs : sliceFrom parts'' j' = some (g0 :: gs) := by
    have : 0 ≤ j' ∧ j' ≤ (parts''.length : Int) := ⟨e2, by omega⟩
    simp only [sliceFrom, this, and_self, if_true, e6]
    simp
  unfold comma
  simp only [hmin, if_false, hv', Int.toNat_ofNat]
  have e1' : commaLoop v.natAbs (v.natAbs : Int) ((([""  , "", "", "", "", "", ""] :
      List String).length : Int) - 1) ["", "", "", "", "", "", ""] = some (v', j', parts') := e1
  rw [e1', Option.some_bind]
  simp only [e4, Option.some_bind, hs, Option.map_some']

theorem comma_spec_aux (v : Int) (hv : inInt64 v) :
    ∃ g0 gs out,
      comma v = some out ∧
      out = (if v < 0 then "-" else "") ++ stringsJoin (g0 :: gs) "," ∧
      1 ≤ g0.length ∧ g0.length ≤ 3 ∧ (∀ g ∈ gs, g.length = 3) ∧
      (∀ g ∈ g0 :: gs, ∀ c ∈ g.data, c.isDigit = true) ∧
      String.mk (out.data.filter fun c => c != ',') = formatInt v := by
  by_cases hmin : v = -9223372036854775808
  · subst hmin
    exact ⟨"9", ["223", "372", "036", "854", "775", "808"], _, rfl, by decide, by decide,
      by decide, by decide, by decide, by decide⟩
  · obtain ⟨g0, gs, e1, h1, h2, h3, h4, h5⟩ := comma_digitGroups v hv hmin
    refine ⟨g0, gs, _, e1, rfl, h1, h2, h3, h4, ?_⟩
    have hj := stringsJoin_filter gs g0 h4
    by_cases hneg : v < 0
    · obtain ⟨m, rfl⟩ := Int.eq_negSucc_of_lt_zero hneg
      simp only [hneg, if_true, String.data_append, List.filter_append, hj, h5]
      rfl
    · obtain ⟨n, rfl⟩ := Int.eq_ofNat_of_zero_le (not_lt.1 hneg)
      simp only [hneg, if_false, String.data_append, List.filter_append, hj, h5]
      rfl

theorem commaLoop_exit (fuel : Nat) : ∀ (v j : Int) (parts : List String) (r : Int × Int × List String),
    commaLoop fuel v j parts = some r → r.1 ≤ 999 := by
  induction fuel with
  | zero =>
    intro v j parts r h
    simp only [commaLoop] at h
    split at h
    · exact absurd h (by simp)
    · simp only [Option.some.injEq] at h
      subst h
      simp only
      omega
  | succ f ih =>
    intro v j parts r h
    simp only [commaLoop] at h
    split at h
    · rcases hs : setPart parts j (padGroup (formatInt (v.tmod 1000))) with _ | p1
      · rw [hs] at h
        exact absurd h (by simp)
      · rw [hs, Option.some_bind] at h
        exact ih _ _ _ _ h
    · simp only [Option.some.injEq] at h
      subst h
      simp only
      omega

theorem commaLoop_fuel_succ (fuel : Nat) : ∀ (v j : Int) (parts : List String)
    (r : Int × Int × List String),
    commaLoop fuel v j parts = some r → commaLoop (fuel + 1) v j parts = some r := by
  induction fuel with
  | zero =>
    intro v j parts r h
    simp only [commaLoop] at h ⊢
    split at h
    · exact absurd h (by simp)
    · rename_i hv
      simp only [hv, if_false]
      exact h
  | succ f ih =>
    intro v j parts r h
    rw [commaLoop] at h ⊢
    split at h
    · rename_i hv
      simp only [hv, if_true]
      rcases hs : setPart parts j (padGroup (formatInt (v.tmod 1000))) with _ | p1
      · rw [hs] at h
        exact absurd h (by simp)
      · rw [hs, Option.some_bind] at h
        rw [Option.some_bind]
        exact ih _ _ _ _ h
    · rename_i hv
      simp only [hv, if_false]
      exact h

/-- C15. For every `int64` `v`, `comma(v)` returns a string `out`: the sign
`-` when `v` is negative, then the digit groups `g0 :: gs` with a comma between
neighbours; `g0` has one to three characters and every later group exactly
three; all their characters are decimal digits; and `out` without its commas
is the decimal string of `v`. Moreover `comma(834142)` is `834,142`. -/
theorem comma_groups (v : Int) (hv : inInt64 v) :
    comma 834142 = some "834,142" ∧
      ∃ g0 gs out,
        comma v = some out ∧
        out = (if v < 0 then "-" else "") ++ stringsJoin (g0 :: gs) "," ∧
        1 ≤ g0.length ∧ g0.length ≤ 3 ∧ (∀ g ∈ gs, g.length = 3) ∧
        (∀ g ∈ g0 :: gs, ∀ c ∈ g.data, c.isDigit = true) ∧
        String.mk (out.data.filter fun c => c != ',') = formatInt v :=
  ⟨by decide, comma_spec_aux v hv⟩

/-- C15, witness. The number -1234567. -/
theorem comma_groups_witness :
    inInt64 (-1234567) ∧ comma (-1234567) = some "-1,234,567" ∧
      ∃ g0 gs out,
        comma (-1234567) = some out ∧
        out = (if (-1234567 : Int) < 0 then "-" else "") ++ stringsJoin (g0 :: gs) "," ∧
        1 ≤ g0.length ∧ g0.length ≤ 3 ∧ (∀ g ∈ gs, g.length = 3) ∧
        (∀ g ∈ g0 :: gs, ∀ c ∈ g.data, c.isDigit = true) ∧
        String.mk (out.data.filter fun c => c != ',') = formatInt (-1234567) :=
  ⟨⟨by decide, by decide⟩, by decide, (comma_groups (-1234567) ⟨by decide, by decide⟩).2⟩

/-- C19. For every `int64` `v`, `comma(v)` returns a string: no access
`parts[j]` or `parts[j:]` is out of range. For `math.MinInt64` the special case
returns `-9,223,372,036,854,775,808`. For every other `v`: when `v` is negative,
`0 - v` does not overflow, and the loop `for v > 999` ends, by its condition, in
a state with `0 ≤ j ≤ 6`; `j` starts at 6 and is decremented once in every
iteration, so the loop runs at most 6 times. -/
theorem comma_total (v : Int) (hv : inInt64 v) :
    (∃ out, comma v = some out) ∧
      comma (-9223372036854775808) = some "-9,223,372,036,854,775,808" ∧
      (v ≠ -9223372036854775808 →
        (v < 0 → wrap64 (0 - v) = -v ∧ inInt64 (-v)) ∧
        ∃ v' j parts,
          commaLoop (if v < 0 then wrap64 (0 - v) else v).toNat
              (if v < 0 then wrap64 (0 - v) else v) 6 ["", "", "", "", "", "", ""] =
            some (v', j, parts) ∧
          v' ≤ 999 ∧ 0 ≤ j ∧ j ≤ 6 ∧ parts.length = 7) := by
  obtain ⟨g0, gs, out, h, -⟩ := comma_spec_aux v hv
  refine ⟨⟨out, h⟩, by decide, fun hmin => ⟨fun hneg => ?_, ?_⟩⟩
  · refine ⟨neg_in_range hv hmin hneg, ?_⟩
    unfold inInt64 at hv ⊢
    omega
  · have hv' : (if v < 0 then wrap64 (0 - v) else v) = (v.natAbs : Int) := by
      by_cases hneg : v < 0
      · rw [if_pos hneg, neg_in_range hv hmin hneg]; omega
      · rw [if_neg hneg]; omega
    have hn : v.natAbs < 1000 ^ (6 + 1) := by
      unfold inInt64 at hv
      have : v.natAbs < 2 ^ 63 := by omega
      exact lt_trans this (by norm_num)
    obtain ⟨v', j', parts', parts'', g0, gs, e1, e2, e3, e4, e5, -, -⟩ :=
      commaLoop_spec v.natAbs v.natAbs 6 6 ["", "", "", "", "", "", ""] (le_refl _) rfl hn
        (le_refl _) (le_refl _)
    rw [hv', Int.toNat_ofNat]
    refine ⟨v', j', parts', e1, commaLoop_exit _ _ _ _ _ e1, e2, e3, ?_⟩
    unfold setPart at e4
    split at e4
    · simp only [Option.some.injEq] at e4
      rw [← e4, List.length_set] at e5
      exact e5
    · exact absurd e4 (by simp)

/-- C19, witness. The largest `int64`: the loop runs 6 times and ends with
`j = 0`. -/
theorem comma_total_witness :
    inInt64 9223372036854775807 ∧
      comma 9223372036854775807 = some "9,223,372,036,854,775,807" ∧
      ∃ out, comma 9223372036854775807 = some out :=
  ⟨⟨by decide, by decide⟩, by decide,
    (comma_total 9223372036854775807 ⟨by decide, by decide⟩).1⟩

end Orgstat
